import Mathlib

/-!
# Dense matrix multiplication: a verification development

Shallow embedding of `hw4/Cycatz-nycu/matrix.cpp`, `hw4/LittleLaGi/_matrix.cpp` and
`hw2/abt8601/q2/vector.cpp`.

Modelling conventions:
* `size_t` values are natural numbers; the development does not model wrap-around of
  `size_t` (dimensions, tile cursors and linear offsets are assumed to stay below
  `SIZE_MAX`).
* `double` elements are an arbitrary type `α` with `0`, `+` and `*` (exact arithmetic when
  `α` is a commutative ring).
* every C++ `for` loop is the combinator `forLoop`, which runs under an explicit fuel bound:
  a call that does not finish within the fuel yields `Res.timeout`.
-/

namespace Nsdhw

/-- C++ exceptions thrown by the code. -/
inductive Exn where
  | invalid_argument
  | out_of_range
  | runtime_error
  deriving DecidableEq

/-- Outcome of running a piece of code: a value, a thrown exception, an access outside the
allocated storage (undefined behaviour), or exhaustion of the fuel. -/
inductive Res (σ : Type) where
  | ret (v : σ)
  | throw (e : Exn)
  | undef
  | timeout
  deriving DecidableEq

namespace Res

/-- Sequencing: everything but a normal return propagates. -/
def bind {σ τ : Type} (r : Res σ) (f : σ → Res τ) : Res τ :=
  match r with
  | ret v => f v
  | throw e => throw e
  | undef => undef
  | timeout => timeout

instance : Monad Res where
  pure := Nsdhw.Res.ret
  bind := Nsdhw.Res.bind

end Res

/-- The loop `for (size_t i = i0; cond(i); i = incr(i)) body`, threading the state `s`.
Each loop may take at most `fuel` iterations (the test that ends the loop counts as one). -/
def forLoop {σ : Type} (cond : Nat → Bool) (incr : Nat → Nat) (body : Nat → σ → Res σ) :
    Nat → Nat → σ → Res σ
  | 0, _, _ => Res.timeout
  | fuel + 1, i, s =>
    if cond i then (body i s).bind (fun s' => forLoop cond incr body fuel (incr i) s')
    else Res.ret s

/-- What a loop body hands back when the enclosing function may `return` from inside the
loop: go on with the next iteration, or leave the function with a value. -/
inductive Flow (ρ σ : Type) where
  | next (s : σ)
  | exit (r : ρ)
  deriving DecidableEq

/-- A `for` loop whose body may `return r` from the enclosing function. -/
def forLoopR {ρ σ : Type} (cond : Nat → Bool) (incr : Nat → Nat)
    (body : Nat → σ → Res (Flow ρ σ)) : Nat → Nat → σ → Res (Flow ρ σ)
  | 0, _, _ => Res.timeout
  | fuel + 1, i, s =>
    if cond i then
      (body i s).bind (fun fl =>
        match fl with
        | Flow.next s' => forLoopR cond incr body fuel (incr i) s'
        | Flow.exit r => Res.ret (Flow.exit r))
    else Res.ret (Flow.next s)

namespace Cycatz

/-- Modelled from the spec: the class declaration (`matrix.h`) is absent. A matrix has a row
count, a column count and a contiguous row-major buffer (`m_elems`, the name used by
`multiply_mkl`). -/
structure Matrix (α : Type) where
  m_nrow : Nat
  m_ncol : Nat
  m_elems : List α
  deriving DecidableEq

variable {α : Type}

/-- The buffer holds exactly `R*C` elements. -/
def Matrix.WF (A : Matrix α) : Prop := A.m_elems.length = A.m_nrow * A.m_ncol

instance (A : Matrix α) : Decidable A.WF := by
  unfold Matrix.WF; infer_instance

/-- Modelled from the spec: `Matrix(R, C)` allocates `R*C` storage, zero-initialised. -/
def Matrix.create [Zero α] (R C : Nat) : Matrix α := ⟨R, C, List.replicate (R * C) 0⟩

def Matrix.nrow (A : Matrix α) : Nat := A.m_nrow

def Matrix.ncol (A : Matrix α) : Nat := A.m_ncol

/-- The member function `Matrix::size` (matrix.cpp:22-24). -/
def Matrix.size (A : Matrix α) : Nat × Nat := (A.m_nrow, A.m_ncol)

/-- The member function `Matrix::check_range` (matrix.cpp:57-63): it throws, or returns `true`. -/
def Matrix.check_range (A : Matrix α) (i j : Nat) : Res Bool :=
  if i ≥ A.m_nrow ∨ j ≥ A.m_ncol then Res.throw Exn.out_of_range
  else Res.ret true

/-- Modelled from the spec: `operator()(i, j) const`, absent with `matrix.h`: the range check
of this variant followed by the linear-offset read at `i*C + j`. -/
def Matrix.get (A : Matrix α) (i j : Nat) : Res α := do
  let _ ← A.check_range i j
  match A.m_elems[i * A.m_ncol + j]? with
  | some v => Res.ret v
  | none => Res.undef

/-- Modelled from the spec: `operator()(i, j) = v`, absent with `matrix.h`: the range check
followed by the linear-offset write at `i*C + j`. -/
def Matrix.set (A : Matrix α) (i j : Nat) (v : α) : Res (Matrix α) := do
  let _ ← A.check_range i j
  if i * A.m_ncol + j < A.m_elems.length then
    Res.ret { A with m_elems := A.m_elems.set (i * A.m_ncol + j) v }
  else Res.undef

/-- Total view of a cell, used to state results: the element at offset `i*C + j`
(`0` outside the buffer). -/
def Matrix.val [Zero α] (A : Matrix α) (i j : Nat) : α := A.m_elems.getD (i * A.m_ncol + j) 0

/-- The function `multiply_naive` (matrix.cpp:65-80). -/
def multiply_naive [Zero α] [Add α] [Mul α] (fuel : Nat) (A B : Matrix α) : Res (Matrix α) :=
  if A.ncol ≠ B.nrow then Res.throw Exn.invalid_argument
  else
    forLoop (fun i => i < A.nrow) (fun i => i + 1) (fun i C =>
      forLoop (fun j => j < B.ncol) (fun j => j + 1) (fun j C => do
        let sum ← forLoop (fun k => k < A.ncol) (fun k => k + 1) (fun k sum => do
          let a ← A.get i k
          let b ← B.get k j
          Res.ret (sum + a * b)) fuel 0 (0 : α)
        C.set i j sum) fuel 0 C) fuel 0 (Matrix.create A.nrow B.ncol)

/-- The function `multiply_tile` (matrix.cpp:84-120). -/
def multiply_tile [Zero α] [Add α] [Mul α] (fuel : Nat) (A B : Matrix α) (tile_width : Nat) :
    Res (Matrix α) :=
  let A_row := A.nrow
  let A_col := A.ncol
  let B_row := B.nrow
  let B_col := B.ncol
  if A_col ≠ B_row then Res.throw Exn.invalid_argument
  else
    forLoop (fun i => i < A_row) (fun i => i + tile_width) (fun i C =>
      forLoop (fun j => j < B_col) (fun j => j + tile_width) (fun j C =>
        let rb := min A_row (i + tile_width)
        let cb := min B_col (j + tile_width)
        forLoop (fun k => k < A_col) (fun k => k + tile_width) (fun k C =>
          let tb := min A_col (k + tile_width)
          forLoop (fun tk => tk < tb) (fun tk => tk + 1) (fun tk C =>
            forLoop (fun ti => ti < rb) (fun ti => ti + 1) (fun ti C => do
              let A_ti_tk ← A.get ti tk
              forLoop (fun tj => tj < cb) (fun tj => tj + 1) (fun tj C => do
                let c ← C.get ti tj
                let b ← B.get tk tj
                C.set ti tj (c + A_ti_tk * b)) fuel j C) fuel i C) fuel k C) fuel 0 C)
        fuel 0 C) fuel 0 (Matrix.create A_row B_col)

/-- The function `multiply_mkl` (matrix.cpp:122-144). The vendor routine `cblas_dgemm` is external: it is
the parameter `dgemm m n k a lda b ldb c ldc`, which gives the new content of the buffer `c`
(row-major, no transpose, alpha 1.0, beta 0.0). -/
def multiply_mkl [Zero α]
    (dgemm : Nat → Nat → Nat → List α → Nat → List α → Nat → List α → Nat → List α)
    (A B : Matrix α) : Res (Matrix α) :=
  if A.ncol ≠ B.nrow then Res.throw Exn.invalid_argument
  else
    let C : Matrix α := Matrix.create A.nrow B.ncol
    let out := dgemm A.nrow B.ncol A.ncol A.m_elems A.ncol B.m_elems B.ncol C.m_elems C.ncol
    Res.ret { C with m_elems := out }

/-- The operator `Matrix::operator==` (matrix.cpp:27-41). The comparison `!=` of two `double`
elements (matrix.cpp:34) is the parameter `ne`: on doubles it is not disequality of values,
since NaN differs from itself and `0.0` does not differ from `-0.0`. -/
def Matrix.operator_eq (ne : α → α → Bool) (fuel : Nat) (X rhs : Matrix α) : Res Bool :=
  if X.size ≠ rhs.size then Res.ret false
  else do
    let r ← forLoopR (fun i => i < X.m_nrow) (fun i => i + 1) (fun i (_ : Unit) =>
      forLoopR (fun j => j < X.m_ncol) (fun j => j + 1) (fun j (_ : Unit) => do
        let a ← X.get i j
        let b ← rhs.get i j
        if ne a b then Res.ret (Flow.exit false) else Res.ret (Flow.next ())) fuel 0 ()) fuel 0 ()
    match r with
    | Flow.exit b => Res.ret b
    | Flow.next _ => Res.ret true

/-- The comparison `!=` on doubles that are either NaN (`none`) or a value: it is true
whenever an operand is NaN, and disequality on values. -/
def neNaN {β : Type} [DecidableEq β] : Option β → Option β → Bool
  | some x, some y => decide (x ≠ y)
  | _, _ => true

/-- The matrix has shape `R × Cn` and a buffer of `R*Cn` elements. -/
def Matrix.Shaped (C : Matrix α) (R Cn : Nat) : Prop :=
  C.m_nrow = R ∧ C.m_ncol = Cn ∧ C.m_elems.length = R * Cn

/-- How many products cell `(i',j')` has received while the tile with rows `[i, rb)` and
columns `[j, cb)` is being processed: `K` (all of them) for the rows above `i` and, in the
rows of the tile, for the columns left of `j`; `inner i' j'` inside the tile; none elsewhere. -/
def progress (K i rb j cb : Nat) (inner : Nat → Nat → Nat) (i' j' : Nat) : Nat :=
  if i' < i then K
  else if i' < rb then (if j' < j then K else if j' < cb then inner i' j' else 0)
  else 0

/-- The sum the naive algorithm accumulates for cell `(i,j)`: starting from `0`, the products
`A(i,k) * B(k,j)` are added for `k = 0, 1, ..., n-1` in this order. -/
def dot [Zero α] [Add α] [Mul α] (A B : Matrix α) (i j n : Nat) : α :=
  (List.range n).foldl (fun s k => s + A.val i k * B.val k j) 0

end Cycatz

namespace LittleLaGi

variable {α : Type}

/-- The member `std::vector<double, MyAllocator<double>> data`: `size` constructed elements at
the front of a block of raw storage `cells`, whose length is the capacity. -/
structure Vec (α : Type) where
  size : Nat
  cells : List α
  deriving DecidableEq

/-- The initialiser `data(alloc)`: the empty vector, without storage. -/
def Vec.empty : Vec α := ⟨0, []⟩

def Vec.capacity (v : Vec α) : Nat := v.cells.length

/-- The call `std::vector::reserve(n)`: when `n` exceeds the capacity a block of `n` cells is taken
from the allocator, the constructed elements are moved to its front and every other cell
keeps what the raw block held (`raw k` at offset `k`; `MyAllocator.hpp` is absent, so the
content of a block it hands out is a parameter). The size is unchanged and the new capacity
is exactly `n`. -/
def Vec.reserve (raw : Nat → α) (v : Vec α) (n : Nat) : Vec α :=
  if n > v.capacity then
    { size := v.size
      cells := (List.range n).map (fun k => if k < v.size then v.cells.getD k (raw k) else raw k) }
  else v

/-- Unchecked read `data[idx]`: it addresses the raw storage, whether or not an element was
constructed there; outside the storage the behaviour is undefined. -/
def Vec.read (v : Vec α) (idx : Nat) : Res α :=
  match v.cells[idx]? with
  | some x => Res.ret x
  | none => Res.undef

/-- Unchecked `data[idx] = x` write. -/
def Vec.write (v : Vec α) (idx : Nat) (x : α) : Res (Vec α) :=
  if idx < v.cells.length then Res.ret { v with cells := v.cells.set idx x }
  else Res.undef

/-- The class `Matrix` (_matrix.cpp:14-58); the timing fields `m_elapsed` and `m_nflo` take
no part in the operations embedded here and are left out. -/
structure Matrix (α : Type) where
  nrow : Nat
  ncol : Nat
  data : Vec α
  deriving DecidableEq

/-- The member function `Matrix::reset_buffer` (_matrix.cpp:36-41). -/
def Matrix.reset_buffer (raw : Nat → α) (m : Matrix α) (_nrow _ncol : Nat) : Matrix α :=
  let nelement := _nrow * _ncol
  { nrow := _nrow, ncol := _ncol, data := m.data.reserve raw nelement }

/-- The constructor `Matrix(nrow, ncol)`. -/
def Matrix.create (raw : Nat → α) (nrow ncol : Nat) : Matrix α :=
  Matrix.reset_buffer raw { nrow := nrow, ncol := ncol, data := Vec.empty } nrow ncol

/-- The member function `Matrix::index` (_matrix.cpp:43). -/
def Matrix.index (m : Matrix α) (row col : Nat) : Nat := row * m.ncol + col

/-- The read `operator()(row, col) const` (_matrix.cpp:27-29). -/
def Matrix.get (m : Matrix α) (row col : Nat) : Res α := m.data.read (m.index row col)

/-- The write `operator()(row, col) = x` (_matrix.cpp:30-32). -/
def Matrix.set (m : Matrix α) (row col : Nat) (x : α) : Res (Matrix α) := do
  let d ← m.data.write (m.index row col) x
  Res.ret { m with data := d }

/-- The storage covers every cell of the shape. -/
def Matrix.WF (m : Matrix α) : Prop := m.nrow * m.ncol ≤ m.data.cells.length

instance (m : Matrix α) : Decidable m.WF := by
  unfold Matrix.WF; infer_instance

/-- Total view of a cell, used to state results (`0` outside the storage). -/
def Matrix.val [Zero α] (m : Matrix α) (i j : Nat) : α := m.data.cells.getD (m.index i j) 0

/-- The function `multiply_naive` (_matrix.cpp:73-90). -/
def multiply_naive [Zero α] [Add α] [Mul α] (fuel : Nat) (raw : Nat → α) (m1 m2 : Matrix α) :
    Res (Matrix α) :=
  if m1.ncol ≠ m2.nrow then Res.throw Exn.runtime_error
  else
    forLoop (fun i => i < m1.nrow) (fun i => i + 1) (fun i m =>
      forLoop (fun j => j < m2.ncol) (fun j => j + 1) (fun j m => do
        let result ← forLoop (fun k => k < m1.ncol) (fun k => k + 1) (fun k result => do
          let a ← m1.get i k
          let b ← m2.get k j
          Res.ret (result + a * b)) fuel 0 (0 : α)
        m.set i j result) fuel 0 m) fuel 0 (Matrix.create raw m1.nrow m2.ncol)

/-- The function `multiply_tile` (_matrix.cpp:92-116): no shape check. -/
def multiply_tile [Add α] [Mul α] (fuel : Nat) (raw : Nat → α) (m1 m2 : Matrix α)
    (tsize : Nat) : Res (Matrix α) :=
  let m : Matrix α := Matrix.create raw m1.nrow m2.ncol
  let nrow1 := m1.nrow
  let ncol1 := m1.ncol
  let ncol2 := m2.ncol
  forLoop (fun it => it < nrow1) (fun it => it + tsize) (fun it m =>
    forLoop (fun jt => jt < ncol2) (fun jt => jt + tsize) (fun jt m =>
      forLoop (fun kt => kt < ncol1) (fun kt => kt + tsize) (fun kt m =>
        forLoop (fun i => i < tsize && it + i < nrow1) (fun i => i + 1) (fun i m =>
          let m_i := it + i
          forLoop (fun k => k < tsize && kt + k < ncol1) (fun k => k + 1) (fun k m => do
            let m2_k := kt + k
            let m1_tmp ← m1.get (it + i) (kt + k)
            forLoop (fun j => j < tsize && jt + j < ncol2) (fun j => j + 1) (fun j m => do
              let c ← m.get m_i (jt + j)
              let b ← m2.get m2_k (jt + j)
              m.set m_i (jt + j) (c + m1_tmp * b)) fuel 0 m) fuel 0 m) fuel 0 m) fuel 0 m)
      fuel 0 m) fuel 0 m

/-- The function `multiply_mkl` (_matrix.cpp:121-145); `mkl_set_num_threads(1)` has no effect on the
result. The external `cblas_dgemm` is the parameter `dgemm`, as in the other variant. -/
def multiply_mkl
    (dgemm : Nat → Nat → Nat → List α → Nat → List α → Nat → List α → Nat → List α)
    (raw : Nat → α) (mat1 mat2 : Matrix α) : Res (Matrix α) :=
  let ret : Matrix α := Matrix.create raw mat1.nrow mat2.ncol
  let out := dgemm mat1.nrow mat2.ncol mat1.ncol mat1.data.cells mat1.ncol mat2.data.cells
    mat2.ncol ret.data.cells ret.ncol
  Res.ret { ret with data := { ret.data with cells := out } }

/-- The operator `Matrix::operator==` (_matrix.cpp:147-155): no shape comparison. The
comparison `!=` of the elements is taken as disequality of values, which it is on doubles
away from NaN and the two zeros. -/
def Matrix.operator_eq [DecidableEq α] (fuel : Nat) (X m : Matrix α) : Res Bool := do
  let r ← forLoopR (fun i => i < X.nrow) (fun i => i + 1) (fun i (_ : Unit) =>
    forLoopR (fun j => j < X.ncol) (fun j => j + 1) (fun j (_ : Unit) => do
      let a ← X.data.read (X.index i j)
      let b ← m.get i j
      if a ≠ b then Res.ret (Flow.exit false) else Res.ret (Flow.next ())) fuel 0 ()) fuel 0 ()
  match r with
  | Flow.exit b => Res.ret b
  | Flow.next _ => Res.ret true

/-- The matrix has shape `R × Cn` and its storage is a block of exactly `R*Cn` cells. -/
def Matrix.Shaped (m : Matrix α) (R Cn : Nat) : Prop :=
  m.nrow = R ∧ m.ncol = Cn ∧ m.data.cells.length = R * Cn

/-- The sum the naive algorithm accumulates for cell `(i,j)`, in increasing `k` from `0`. -/
def dot [Zero α] [Add α] [Mul α] (m1 m2 : Matrix α) (i j n : Nat) : α :=
  (List.range n).foldl (fun s k => s + m1.val i k * m2.val k j) 0

/-- The same accumulation started from a value `c` instead of `0`. -/
def accum [Zero α] [Add α] [Mul α] (m1 m2 : Matrix α) (c : α) (i j n : Nat) : α :=
  (List.range n).foldl (fun s k => s + m1.val i k * m2.val k j) c

end LittleLaGi

namespace LittleLaGi

variable {α : Type}

/-- The call `std::exchange(obj, new_value)`: the old value of `obj`, and `obj` afterwards. -/
def exchange (obj new_value : Nat) : Nat × Nat := (obj, new_value)

/-- The move constructor of `std::vector`: the new vector takes the storage, the source is
left empty and without storage. -/
def Vec.move_ctor (other : Vec α) : Vec α × Vec α := (other, Vec.empty)

/-- The move constructor `Matrix(Matrix && other)` (_matrix.cpp:23-24): the new matrix, and
`other` afterwards. The members are initialised in declaration order: `nrow`, `ncol`,
`data`. -/
def Matrix.move_ctor (other : Matrix α) : Matrix α × Matrix α :=
  let n := exchange other.nrow 0
  let c := exchange other.ncol 0
  let d := Vec.move_ctor other.data
  ({ nrow := n.1, ncol := c.1, data := d.1 }, { nrow := n.2, ncol := c.2, data := d.2 })

/-- The copy constructor `Matrix(Matrix const & other)` (_matrix.cpp:60-67). The loop tests
read `nrow` and `ncol` of the new matrix, which the element writes do not change. -/
def Matrix.copy_ctor (fuel : Nat) (raw : Nat → α) (other : Matrix α) : Res (Matrix α) :=
  let this : Matrix α := Matrix.reset_buffer raw
    { nrow := other.nrow, ncol := other.ncol, data := Vec.empty } other.nrow other.ncol
  forLoop (fun i => i < this.nrow) (fun i => i + 1) (fun i this' =>
    forLoop (fun j => j < this.ncol) (fun j => j + 1) (fun j this' => do
      let x ← other.get i j
      this'.set i j x) fuel 0 this') fuel 0 this

/-- The copy assignment `Matrix::operator=` (_matrix.cpp:157-170), applied to the target
`self`; `same_object` is the outcome of the test `this == &m`. -/
def Matrix.operator_assign (fuel : Nat) (raw : Nat → α) (self m : Matrix α)
    (same_object : Bool) : Res (Matrix α) :=
  if same_object then Res.ret self
  else
    let this : Matrix α :=
      if self.nrow ≠ m.nrow ∨ self.ncol ≠ m.ncol then Matrix.reset_buffer raw self m.nrow m.ncol
      else self
    forLoop (fun i => i < this.nrow) (fun i => i + 1) (fun i this' =>
      forLoop (fun j => j < this.ncol) (fun j => j + 1) (fun j this' => do
        let x ← m.get i j
        this'.set i j x) fuel 0 this') fuel 0 this

/-- Modelled from the spec: the counters of the accounting allocator (`MyAllocator.hpp` is
absent), process-wide: bytes in flight, number of allocations, number of deallocations. -/
structure Counters where
  bytes : Nat
  allocated : Nat
  deallocated : Nat
  deriving DecidableEq

/-- The size of a `double` in bytes. -/
def sizeof_double : Nat := 8

/-- Modelled from the spec: `allocate(n)` adds 1 to the allocation count and
`n * sizeof(double)` to the bytes in flight. -/
def Counters.allocate (c : Counters) (n : Nat) : Counters :=
  { c with allocated := c.allocated + 1, bytes := c.bytes + n * sizeof_double }

/-- Modelled from the spec: `deallocate(p, n)` adds 1 to the deallocation count and subtracts
`n * sizeof(double)` from the bytes in flight. -/
def Counters.deallocate (c : Counters) (n : Nat) : Counters :=
  { c with deallocated := c.deallocated + 1, bytes := c.bytes - n * sizeof_double }

/-- The function `bytes()` (_matrix.cpp:173). -/
def bytes (c : Counters) : Nat := c.bytes

/-- The function `allocated()` (_matrix.cpp:174). -/
def allocated (c : Counters) : Nat := c.allocated

/-- The function `deallocated()` (_matrix.cpp:175). -/
def deallocated (c : Counters) : Nat := c.deallocated

/-- The call `reserve(n)` together with its calls to the allocator: when `n` exceeds the
capacity one block of `n` elements is allocated and the old block, if there is one, is
given back. The vector it leaves is that of `Vec.reserve`. -/
def Vec.reserve_counted (c : Counters) (raw : Nat → α) (v : Vec α) (n : Nat) :
    Counters × Vec α :=
  if n > v.capacity then
    let c1 := c.allocate n
    let c2 := if v.capacity > 0 then c1.deallocate v.capacity else c1
    (c2, v.reserve raw n)
  else (c, v)

/-- The destructor of the vector: its block, if there is one, is given back. -/
def Vec.destroy (c : Counters) (v : Vec α) : Counters :=
  if v.capacity > 0 then c.deallocate v.capacity else c

/-- The constructor `Matrix(nrow, ncol)` together with its calls to the allocator. -/
def Matrix.create_counted (c : Counters) (raw : Nat → α) (nrow ncol : Nat) :
    Counters × Matrix α :=
  let nelement := nrow * ncol
  let r := Vec.reserve_counted c raw (Vec.empty : Vec α) nelement
  (r.1, { nrow := nrow, ncol := ncol, data := r.2 })

/-- The destructor of a matrix: that of its member `data`. -/
def Matrix.destroy (c : Counters) (m : Matrix α) : Counters := Vec.destroy c m.data

/-- What a caller does with matrices: construct one of some shape, or destroy the `k`-th of
the matrices alive. -/
inductive Event where
  | construct (nrow ncol : Nat)
  | destroy (k : Nat)
  deriving DecidableEq

/-- The counters and the matrices alive. -/
structure World (α : Type) where
  counters : Counters
  alive : List (Matrix α)

/-- One event. Destroying a matrix that does not exist does nothing. -/
def World.step (raw : Nat → α) (w : World α) : Event → World α
  | Event.construct nrow ncol =>
    let r := Matrix.create_counted w.counters raw nrow ncol
    { counters := r.1, alive := r.2 :: w.alive }
  | Event.destroy k =>
    match w.alive[k]? with
    | some m => { counters := m.destroy w.counters, alive := w.alive.eraseIdx k }
    | none => w

/-- A run of events from the start of the process: counters at zero, no matrix alive. -/
def World.run (raw : Nat → α) (es : List Event) : World α :=
  es.foldl (World.step raw) { counters := ⟨0, 0, 0⟩, alive := [] }

end LittleLaGi

namespace Cycatz

variable {α : Type}

/-- The member function `Matrix::to_string` (matrix.cpp:43-55). The text a `double` is
written as by `operator<<` is the parameter `fmt`; `std::endl` writes a newline. -/
def Matrix.to_string (fmt : α → String) (fuel : Nat) (A : Matrix α) : Res String :=
  let ss := "["
  forLoop (fun i => i < A.m_nrow) (fun i => i + 1) (fun i ss => do
    let ss ← forLoop (fun j => j < A.m_ncol) (fun j => j + 1) (fun j ss => do
      let x ← A.get i j
      Res.ret (ss ++ " " ++ fmt x)) fuel 0 ss
    if i = A.m_nrow - 1 then Res.ret (ss ++ " ]")
    else Res.ret (ss ++ "\n")) fuel 0 ss

/-- Symbolic elements: the free terms over `0`, `+`, `*` and the entries `a i k` of a left
matrix and `b k j` of a right matrix. Nothing is assumed of the operations. -/
inductive Term where
  | zero
  | add (x y : Term)
  | mul (x y : Term)
  | a (i k : Nat)
  | b (k j : Nat)
  deriving DecidableEq

instance : Zero Term := ⟨Term.zero⟩

instance : Add Term := ⟨Term.add⟩

instance : Mul Term := ⟨Term.mul⟩

/-- What a term was accumulated onto: the left end of its chain of additions. -/
def Term.base : Term → Term
  | Term.add x _ => x.base
  | t => t

/-- The terms added onto the base, in the order in which they were added. -/
def Term.summands : Term → List Term
  | Term.add x y => x.summands ++ [y]
  | _ => []

/-- The `R×K` matrix of the symbols `a i k`. -/
def symA (R K : Nat) : Matrix Term :=
  ⟨R, K, (List.range (R * K)).map (fun p => Term.a (p / K) (p % K))⟩

/-- The `K×Cn` matrix of the symbols `b k j`. -/
def symB (K Cn : Nat) : Matrix Term :=
  ⟨K, Cn, (List.range (K * Cn)).map (fun p => Term.b (p / Cn) (p % Cn))⟩

end Cycatz

namespace Abt8601

variable {α : Type}

/-- The operations on `double` that `vector.cpp` uses, all external: the comparison `<`,
arithmetic, `std::sqrt`, `std::acos`, `std::isinf`, `std::isfinite`, `std::copysign`, and the
conversion of an integer literal. -/
structure Dbl (α : Type) where
  lt : α → α → Bool
  add : α → α → α
  mul : α → α → α
  div : α → α → α
  sqrt : α → α
  acos : α → α
  isinf : α → Bool
  isfinite : α → Bool
  copysign : α → α → α
  ofInt : Int → α

/-- The function `clamp` (vector.cpp:6-11), over a comparison `lt`. -/
def clamp (lt : α → α → Bool) (v lo hi : α) : α :=
  if lt v lo then lo
  else if lt hi v then hi
  else v

/-- The function `dot_r2` (vector.cpp:13-16). -/
def dot_r2 (d : Dbl α) (u v : α × α) : α := d.add (d.mul u.1 v.1) (d.mul u.2 v.2)

/-- The function `normalise_r2` (vector.cpp:18-33). -/
def normalise_r2 (d : Dbl α) (v : α × α) : α × α :=
  if d.isinf v.1 && d.isfinite v.2 then (d.copysign (d.ofInt 1) v.1, d.ofInt 0)
  else if d.isfinite v.1 && d.isinf v.2 then (d.ofInt 0, d.copysign (d.ofInt 1) v.2)
  else
    let l2_norm := d.sqrt (dot_r2 d v v)
    (d.div v.1 l2_norm, d.div v.2 l2_norm)

/-- The function `angle_between_r2` (vector.cpp:35-44). -/
def angle_between_r2 (d : Dbl α) (u v : α × α) : α :=
  d.acos (clamp d.lt (dot_r2 d (normalise_r2 d u) (normalise_r2 d v)) (d.ofInt (-1)) (d.ofInt 1))

/-- A `double` that is either NaN (`none`) or a value of a linearly ordered set; every
comparison with NaN is false. -/
def ltNaN {β : Type} [LinearOrder β] : Option β → Option β → Bool
  | some x, some y => decide (x < y)
  | _, _ => false

end Abt8601

/-! ## Generic facts about outcomes and loops -/

@[simp] theorem Res.ret_bind {σ τ : Type} (v : σ) (f : σ → Res τ) : (Res.ret v >>= f) = f v := rfl

@[simp] theorem Res.throw_bind {σ τ : Type} (e : Exn) (f : σ → Res τ) :
    ((Res.throw e : Res σ) >>= f) = Res.throw e := rfl

@[simp] theorem Res.undef_bind {σ τ : Type} (f : σ → Res τ) :
    ((Res.undef : Res σ) >>= f) = Res.undef := rfl

@[simp] theorem Res.timeout_bind {σ τ : Type} (f : σ → Res τ) :
    ((Res.timeout : Res σ) >>= f) = Res.timeout := rfl

@[simp] theorem Res.bind_ret_eq {σ τ : Type} (v : σ) (f : σ → Res τ) : (Res.ret v).bind f = f v := rfl

@[simp] theorem Res.bind_timeout_eq {σ τ : Type} (f : σ → Res τ) :
    (Res.timeout : Res σ).bind f = Res.timeout := rfl

/-- Total-correctness rule for `forLoop`: an invariant kept by the body, and a measure of the
cursor that every iteration decreases, give a normal return in a state satisfying the
invariant at a cursor where the loop test fails, as soon as the fuel exceeds the measure. -/
theorem forLoop_rule {σ : Type} (cond : Nat → Bool) (incr : Nat → Nat) (body : Nat → σ → Res σ)
    (Inv : Nat → σ → Prop) (μ : Nat → Nat)
    (hstep : ∀ i s, cond i = true → Inv i s → ∃ s', body i s = Res.ret s' ∧ Inv (incr i) s')
    (hμ : ∀ i, cond i = true → μ (incr i) < μ i) :
    ∀ fuel i s, μ i < fuel → Inv i s →
      ∃ i' s', forLoop cond incr body fuel i s = Res.ret s' ∧ cond i' = false ∧ Inv i' s' := by
  intro fuel
  induction fuel with
  | zero => intro i s h; omega
  | succ n ih =>
    intro i s hfuel hinv
    by_cases hc : cond i = true
    · obtain ⟨s', hb, hinv'⟩ := hstep i s hc hinv
      have hlt : μ (incr i) < n := by have := hμ i hc; omega
      obtain ⟨i', s'', hr, hc', hi'⟩ := ih (incr i) s' hlt hinv'
      exact ⟨i', s'', by simp [forLoop, hc, hb, hr], hc', hi'⟩
    · exact ⟨i, s, by simp [forLoop, hc], by simpa using hc, hinv⟩

/-- Goal-directed form of `forLoop_rule`. -/
theorem forLoop_spec {σ : Type} (cond : Nat → Bool) (incr : Nat → Nat) (body : Nat → σ → Res σ)
    (Inv : Nat → σ → Prop) (μ : Nat → Nat) (Q : σ → Prop) (fuel i : Nat) (s : σ)
    (hfuel : μ i < fuel) (h0 : Inv i s)
    (hμ : ∀ i, cond i = true → μ (incr i) < μ i)
    (hstep : ∀ i s, cond i = true → Inv i s → ∃ s', body i s = Res.ret s' ∧ Inv (incr i) s')
    (hexit : ∀ i s, cond i = false → Inv i s → Q s) :
    ∃ s', forLoop cond incr body fuel i s = Res.ret s' ∧ Q s' := by
  obtain ⟨i', s', hr, hc, hinv⟩ := forLoop_rule cond incr body Inv μ hstep hμ fuel i s hfuel h0
  exact ⟨s', hr, hexit i' s' hc hinv⟩

/-- The rule for the loops `for (i = i0; i < stop; i += step)` with `step ≥ 1`. -/
theorem forLoop_lt_spec {σ : Type} (stop step : Nat) (body : Nat → σ → Res σ)
    (Inv : Nat → σ → Prop) (Q : σ → Prop) (fuel i : Nat) (s : σ)
    (hpos : 1 ≤ step) (hfuel : stop - i < fuel) (h0 : Inv i s)
    (hstep : ∀ i s, i < stop → Inv i s → ∃ s', body i s = Res.ret s' ∧ Inv (i + step) s')
    (hexit : ∀ i s, stop ≤ i → Inv i s → Q s) :
    ∃ s', forLoop (fun i => decide (i < stop)) (fun i => i + step) body fuel i s = Res.ret s'
      ∧ Q s' := by
  refine forLoop_spec _ _ body Inv (fun i => stop - i) Q fuel i s hfuel h0 ?_ ?_ ?_
  · intro i hc
    simp only [decide_eq_true_eq] at hc
    show stop - (i + step) < stop - i
    omega
  · intro i s hc hinv
    simp only [decide_eq_true_eq] at hc
    exact hstep i s hc hinv
  · intro i s hc hinv
    simp only [decide_eq_false_iff_not] at hc
    exact hexit i s (by omega) hinv

/-- The rule for the loops `for (i = i0; i < a && b + i < c; ++i)`. -/
theorem forLoop_and_spec {σ : Type} (a b c : Nat) (body : Nat → σ → Res σ)
    (Inv : Nat → σ → Prop) (Q : σ → Prop) (fuel i : Nat) (s : σ)
    (hfuel : c - (b + i) < fuel) (h0 : Inv i s)
    (hstep : ∀ i s, i < a → b + i < c → Inv i s → ∃ s', body i s = Res.ret s' ∧ Inv (i + 1) s')
    (hexit : ∀ i s, (a ≤ i ∨ c ≤ b + i) → Inv i s → Q s) :
    ∃ s', forLoop (fun i => decide (i < a) && decide (b + i < c)) (fun i => i + 1) body fuel i s
        = Res.ret s' ∧ Q s' := by
  refine forLoop_spec _ _ body Inv (fun i => c - (b + i)) Q fuel i s hfuel h0 ?_ ?_ ?_
  · intro i hc
    simp only [Bool.and_eq_true, decide_eq_true_eq] at hc
    show c - (b + (i + 1)) < c - (b + i)
    omega
  · intro i s hc hinv
    simp only [Bool.and_eq_true, decide_eq_true_eq] at hc
    exact hstep i s hc.1 hc.2 hinv
  · intro i s hc hinv
    simp only [Bool.and_eq_false_iff, decide_eq_false_iff_not] at hc
    exact hexit i s (by omega) hinv

/-- Sequencing rule: a first step that returns a value satisfying `P`, then a continuation
that returns from every such value. -/
theorem bind_spec {σ τ : Type} (r : Res σ) (f : σ → Res τ) (P : σ → Prop) (Q : τ → Prop)
    (h1 : ∃ v, r = Res.ret v ∧ P v) (h2 : ∀ v, P v → ∃ s', f v = Res.ret s' ∧ Q s') :
    ∃ s', (r >>= f) = Res.ret s' ∧ Q s' := by
  obtain ⟨v, hr, hp⟩ := h1
  obtain ⟨s', hf, hq⟩ := h2 v hp
  exact ⟨s', by rw [hr]; exact hf, hq⟩

/-- A loop whose cursor does not move and whose body returns normally never finishes. -/
theorem forLoop_stuck {σ : Type} (cond : Nat → Bool) (incr : Nat → Nat) (body : Nat → σ → Res σ)
    (i : Nat) (hc : cond i = true) (hi : incr i = i)
    (hb : ∀ s, body i s = Res.timeout ∨ ∃ s', body i s = Res.ret s') :
    ∀ fuel s, forLoop cond incr body fuel i s = Res.timeout := by
  intro fuel
  induction fuel with
  | zero => intro s; rfl
  | succ n ih =>
    intro s
    rcases hb s with h | ⟨s', h⟩
    · simp [forLoop, hc, h]
    · simp [forLoop, hc, h, hi, ih]

/-- A loop throws `e` only if its body does. -/
theorem forLoop_ne_throw {σ : Type} (cond : Nat → Bool) (incr : Nat → Nat)
    (body : Nat → σ → Res σ) (e : Exn) (hb : ∀ i s, body i s ≠ Res.throw e) :
    ∀ fuel i s, forLoop cond incr body fuel i s ≠ Res.throw e := by
  intro fuel
  induction fuel with
  | zero => intro i s h; simp [forLoop] at h
  | succ n ih =>
    intro i s h
    by_cases hc : cond i = true
    · simp only [forLoop, hc, if_true] at h
      cases hbody : body i s with
      | ret v => rw [hbody] at h; exact ih _ _ h
      | throw e' => rw [hbody] at h; simp [Res.bind] at h; exact hb i s (by rw [hbody, h])
      | undef => rw [hbody] at h; simp [Res.bind] at h
      | timeout => rw [hbody] at h; simp [Res.bind] at h
    · simp [forLoop, hc] at h

/-- A loop whose body only returns normally or runs out of fuel does the same. -/
theorem forLoop_ret_or_timeout {σ : Type} (cond : Nat → Bool) (incr : Nat → Nat)
    (body : Nat → σ → Res σ)
    (hb : ∀ i s, body i s = Res.timeout ∨ ∃ s', body i s = Res.ret s') :
    ∀ fuel i s, forLoop cond incr body fuel i s = Res.timeout ∨
      ∃ s', forLoop cond incr body fuel i s = Res.ret s' := by
  intro fuel
  induction fuel with
  | zero => intro i s; exact Or.inl rfl
  | succ n ih =>
    intro i s
    by_cases hc : cond i = true
    · rcases hb i s with h | ⟨s', h⟩
      · left; simp [forLoop, hc, h]
      · rcases ih (incr i) s' with h' | ⟨s'', h'⟩
        · left; simp [forLoop, hc, h, h']
        · right; exact ⟨s'', by simp [forLoop, hc, h, h']⟩
    · right; exact ⟨s, by simp [forLoop, hc]⟩

/-- A loop whose test fails at once returns its state, given any fuel at all. -/
theorem forLoop_skip {σ : Type} (cond : Nat → Bool) (incr : Nat → Nat) (body : Nat → σ → Res σ)
    (fuel i : Nat) (s : σ) (hc : cond i = false) :
    forLoop cond incr body (fuel + 1) i s = Res.ret s := by
  simp [forLoop, hc]

/-- The rule for a unit-step loop whose body may leave the function: either every iteration
goes on and the loop ends in a state satisfying `Q`, or some iteration returns a value
satisfying `QE`. -/
theorem forLoopR_lt_spec {ρ σ : Type} (stop : Nat) (body : Nat → σ → Res (Flow ρ σ))
    (Inv : Nat → σ → Prop) (Q : σ → Prop) (QE : ρ → Prop)
    (hstep : ∀ i s, i < stop → Inv i s →
      (∃ s', body i s = Res.ret (Flow.next s') ∧ Inv (i + 1) s') ∨
      (∃ r, body i s = Res.ret (Flow.exit r) ∧ QE r))
    (hexit : ∀ i s, stop ≤ i → Inv i s → Q s) :
    ∀ fuel i s, stop - i < fuel → Inv i s →
      (∃ s', forLoopR (fun i => decide (i < stop)) (fun i => i + 1) body fuel i s
          = Res.ret (Flow.next s') ∧ Q s') ∨
      (∃ r, forLoopR (fun i => decide (i < stop)) (fun i => i + 1) body fuel i s
          = Res.ret (Flow.exit r) ∧ QE r) := by
  intro fuel
  induction fuel with
  | zero => intro i s h; omega
  | succ n ih =>
    intro i s hfuel hinv
    by_cases hc : i < stop
    · rcases hstep i s hc hinv with ⟨s', hb, hinv'⟩ | ⟨r, hb, hr⟩
      · rcases ih (i + 1) s' (by omega) hinv' with ⟨s'', h, hq⟩ | ⟨r, h, hq⟩
        · left; exact ⟨s'', by simp [forLoopR, hc, hb, h], hq⟩
        · right; exact ⟨r, by simp [forLoopR, hc, hb, h], hq⟩
      · right; exact ⟨r, by simp [forLoopR, hc, hb], hr⟩
    · left; exact ⟨s, by simp [forLoopR, hc], hexit i s (by omega) hinv⟩

/-! ## Row-major buffers -/

theorem idx_lt {R C i j : Nat} (hi : i < R) (hj : j < C) : i * C + j < R * C := by
  have h1 : (i + 1) * C ≤ R * C := Nat.mul_le_mul_right C hi
  have h2 : (i + 1) * C = i * C + C := by ring
  omega

theorem idx_inj {C i j i' j' : Nat} (hj : j < C) (hj' : j' < C)
    (h : i * C + j = i' * C + j') : i = i' ∧ j = j' := by
  have hi : i = i' := by
    rcases Nat.lt_trichotomy i i' with hlt | heq | hgt
    · have h1 : (i + 1) * C ≤ i' * C := Nat.mul_le_mul_right C hlt
      have h2 : (i + 1) * C = i * C + C := by ring
      omega
    · exact heq
    · have h1 : (i' + 1) * C ≤ i * C := Nat.mul_le_mul_right C hgt
      have h2 : (i' + 1) * C = i' * C + C := by ring
      omega
  subst hi
  exact ⟨rfl, by omega⟩

/-- Reading a row-major buffer after one in-range write. -/
theorem getD_set_rm {α : Type} (l : List α) (d v : α) {C i j i' j' : Nat}
    (hlen : i * C + j < l.length) (hj : j < C) (hj' : j' < C) :
    (l.set (i * C + j) v).getD (i' * C + j') d
      = if i' = i ∧ j' = j then v else l.getD (i' * C + j') d := by
  simp only [List.getD_eq_getElem?_getD, List.getElem?_set]
  by_cases h : i * C + j = i' * C + j'
  · obtain ⟨h1, h2⟩ := idx_inj hj hj' h
    subst h1; subst h2
    simp [hlen]
  · have h' : ¬ (i' = i ∧ j' = j) := by
      rintro ⟨h1, h2⟩; subst h1; subst h2; exact h rfl
    simp [h, h']

theorem foldl_range_succ {α : Type} (f : α → Nat → α) (a : α) (n : Nat) :
    (List.range (n + 1)).foldl f a = f ((List.range n).foldl f a) n := by
  rw [List.range_succ, List.foldl_append]; rfl

namespace Cycatz

variable {α : Type}

theorem Matrix.create_shaped [Zero α] (R Cn : Nat) : (Matrix.create R Cn : Matrix α).Shaped R Cn :=
  ⟨rfl, rfl, by simp [Matrix.create]⟩

theorem Matrix.create_val [Zero α] (R Cn i j : Nat) : (Matrix.create R Cn : Matrix α).val i j = 0 := by
  simp only [Matrix.val, Matrix.create, List.getD_eq_getElem?_getD, List.getElem?_replicate]
  split_ifs <;> rfl

theorem Matrix.get_eq [Zero α] (A : Matrix α) (hA : A.WF) {i j : Nat} (hi : i < A.m_nrow)
    (hj : j < A.m_ncol) : A.get i j = Res.ret (A.val i j) := by
  have hlen : i * A.m_ncol + j < A.m_elems.length := by rw [hA]; exact idx_lt hi hj
  have hcr : A.check_range i j = Res.ret true := by
    simp only [Matrix.check_range]
    rw [if_neg (by omega)]
  simp [Matrix.get, Matrix.val, hcr, List.getElem?_eq_getElem hlen, List.getD_eq_getElem?_getD]

theorem Matrix.Shaped.wf {C : Matrix α} {R Cn : Nat} (h : C.Shaped R Cn) : C.WF := by
  obtain ⟨h1, h2, h3⟩ := h
  simp [Matrix.WF, h1, h2, h3]

theorem Matrix.set_spec [Zero α] (C : Matrix α) {R Cn i j : Nat} (hC : C.Shaped R Cn) (hi : i < R)
    (hj : j < Cn) (v : α) :
    ∃ C', C.set i j v = Res.ret C' ∧ C'.Shaped R Cn ∧
      ∀ i' j', j' < Cn → C'.val i' j' = if i' = i ∧ j' = j then v else C.val i' j' := by
  obtain ⟨h1, h2, h3⟩ := hC
  have hlen : i * C.m_ncol + j < C.m_elems.length := by rw [h3, h2]; exact idx_lt hi hj
  have hcr : C.check_range i j = Res.ret true := by
    simp only [Matrix.check_range]
    rw [if_neg (by omega)]
  refine ⟨{ C with m_elems := C.m_elems.set (i * C.m_ncol + j) v }, ?_, ⟨h1, h2, ?_⟩, ?_⟩
  · simp [Matrix.set, hcr, hlen]
  · simp [h3]
  · intro i' j' hj'
    simp only [Matrix.val]
    exact getD_set_rm C.m_elems 0 v hlen (by omega) (by omega)

theorem multiply_naive_spec [Zero α] [Add α] [Mul α] (A B : Matrix α) (hA : A.WF) (hB : B.WF)
    (hAB : A.ncol = B.nrow) (fuel : Nat) (hR : A.nrow < fuel) (hK : A.ncol < fuel)
    (hC : B.ncol < fuel) :
    ∃ C, multiply_naive fuel A B = Res.ret C ∧ C.Shaped A.nrow B.ncol ∧
      ∀ i j, i < A.nrow → j < B.ncol → C.val i j = dot A B i j A.ncol := by
  unfold multiply_naive
  rw [if_neg (by simpa using hAB)]
  simp only [Matrix.nrow, Matrix.ncol] at *
  -- loop over the rows
  refine forLoop_lt_spec _ 1 _
    (fun i C => i ≤ A.m_nrow ∧ C.Shaped A.m_nrow B.m_ncol ∧
      ∀ i' j', i' < i → j' < B.m_ncol → C.val i' j' = dot A B i' j' A.m_ncol)
    _ fuel 0 _ (le_refl 1) (by omega)
    ⟨by omega, Matrix.create_shaped _ _, by intro i' j' h; omega⟩ ?_ ?_
  · intro i C hc ⟨_, hsh, hdone⟩
    -- loop over the columns of row `i`
    refine forLoop_lt_spec _ 1 _
      (fun j C' => j ≤ B.m_ncol ∧ C'.Shaped A.m_nrow B.m_ncol ∧
        (∀ i' j', i' < i → j' < B.m_ncol → C'.val i' j' = dot A B i' j' A.m_ncol) ∧
        ∀ j', j' < j → C'.val i j' = dot A B i j' A.m_ncol)
      _ fuel 0 C (le_refl 1) (by omega)
      ⟨by omega, hsh, hdone, by intro j' h; omega⟩ ?_ ?_
    · intro j C' hcj ⟨_, hsh', hrows, hrow⟩
      refine bind_spec _ _ (fun sum => sum = dot A B i j A.m_ncol) _ ?_ ?_
      · -- the accumulation over `k`
        refine forLoop_lt_spec _ 1 _ (fun k sum => k ≤ A.m_ncol ∧ sum = dot A B i j k)
          _ fuel 0 0 (le_refl 1) (by omega) ⟨by omega, rfl⟩ ?_ ?_
        · intro k sum hk ⟨_, hsum⟩
          refine ⟨sum + A.val i k * B.val k j, ?_, by omega, ?_⟩
          · rw [Matrix.get_eq A hA hc hk, Res.ret_bind,
              Matrix.get_eq B hB (by omega) hcj, Res.ret_bind]
          · rw [hsum, dot, dot, foldl_range_succ]
        · intro k sum hk ⟨hle, hsum⟩
          have : k = A.m_ncol := by omega
          rw [hsum, this]
      · intro sum hsum
        obtain ⟨C'', hset, hsh'', hval⟩ := Matrix.set_spec C' hsh' hc hcj sum
        refine ⟨C'', hset, by omega, hsh'', ?_, ?_⟩
        · intro i' j' hi' hj'
          rw [hval i' j' hj', if_neg (by omega)]
          exact hrows i' j' hi' hj'
        · intro j' hj'
          rw [hval i j' (by omega)]
          by_cases h : j' = j
          · subst h; simp [hsum]
          · rw [if_neg (by simp [h])]
            exact hrow j' (by omega)
    · intro j C' hcj ⟨hle, hsh', hrows, hrow⟩
      have hj : j = B.m_ncol := by omega
      subst hj
      refine ⟨by omega, hsh', ?_⟩
      intro i' j' hi' hj'
      by_cases h : i' = i
      · subst h; exact hrow j' hj'
      · exact hrows i' j' (by omega) hj'
  · intro i C hc ⟨hle, hsh, hdone⟩
    have hi : i = A.m_nrow := by omega
    subst hi
    exact ⟨hsh, hdone⟩

theorem dot_zero [Zero α] [Add α] [Mul α] (A B : Matrix α) (i j : Nat) : dot A B i j 0 = 0 := rfl

theorem dot_succ [Zero α] [Add α] [Mul α] (A B : Matrix α) (i j n : Nat) :
    dot A B i j (n + 1) = dot A B i j n + A.val i n * B.val n j := by
  rw [dot, dot, foldl_range_succ]

theorem progress_inner (K i rb j cb : Nat) (f g : Nat → Nat → Nat) (i' j' : Nat)
    (h : i ≤ i' → i' < rb → j ≤ j' → j' < cb → f i' j' = g i' j') :
    progress K i rb j cb f i' j' = progress K i rb j cb g i' j' := by
  simp only [progress]
  split_ifs with h1 h2 h3 h4
  · rfl
  · rfl
  · exact h (by omega) h2 (by omega) h4
  · rfl
  · rfl

/-- Every cell of the tiled product receives the products `A(i,k) * B(k,j)` in increasing `k`,
starting from the `0` of the fresh result: it ends as the very sum `dot` of the naive loop. -/
theorem multiply_tile_spec [Zero α] [Add α] [Mul α] (A B : Matrix α) (hA : A.WF) (hB : B.WF)
    (hAB : A.ncol = B.nrow) (t : Nat) (ht : 1 ≤ t) (fuel : Nat) (hR : A.nrow < fuel)
    (hK : A.ncol < fuel) (hC : B.ncol < fuel) :
    ∃ C, multiply_tile fuel A B t = Res.ret C ∧ C.Shaped A.nrow B.ncol ∧
      ∀ i j, i < A.nrow → j < B.ncol → C.val i j = dot A B i j A.ncol := by
  unfold multiply_tile
  simp only [Matrix.nrow, Matrix.ncol] at *
  rw [if_neg (by simpa using hAB)]
  -- row tiles
  refine forLoop_lt_spec _ t _
    (fun i C => C.Shaped A.m_nrow B.m_ncol ∧
      ∀ i' j', i' < A.m_nrow → j' < B.m_ncol →
        C.val i' j' = dot A B i' j' (progress A.m_ncol i i 0 0 (fun _ _ => 0) i' j'))
    _ fuel 0 _ ht (by omega) ⟨Matrix.create_shaped _ _, ?_⟩ ?_ ?_
  · intro i' j' _ _
    rw [Matrix.create_val]
    simp [progress, dot_zero]
  · intro i C hi ⟨hsh, hinv⟩
    -- column tiles
    refine forLoop_lt_spec _ t _
      (fun j C => C.Shaped A.m_nrow B.m_ncol ∧
        ∀ i' j', i' < A.m_nrow → j' < B.m_ncol →
          C.val i' j' = dot A B i' j'
            (progress A.m_ncol i (min A.m_nrow (i + t)) j j (fun _ _ => 0) i' j'))
      _ fuel 0 C ht (by omega) ⟨hsh, ?_⟩ ?_ ?_
    · intro i' j' hi' hj'
      rw [hinv i' j' hi' hj']
      congr 1
      simp only [progress]
      split_ifs <;> omega
    · intro j C hj ⟨hsh, hinv⟩
      -- tiles of the shared dimension
      refine forLoop_lt_spec _ t _
        (fun k C => C.Shaped A.m_nrow B.m_ncol ∧
          ∀ i' j', i' < A.m_nrow → j' < B.m_ncol →
            C.val i' j' = dot A B i' j'
              (progress A.m_ncol i (min A.m_nrow (i + t)) j (min B.m_ncol (j + t))
                (fun _ _ => min k A.m_ncol) i' j'))
        _ fuel 0 C ht (by omega) ⟨hsh, ?_⟩ ?_ ?_
      · intro i' j' hi' hj'
        rw [hinv i' j' hi' hj']
        congr 1
        simp only [progress]
        split_ifs <;> omega
      · intro k C hk ⟨hsh, hinv⟩
        -- the products of one k-tile, for `tk` in increasing order
        refine forLoop_lt_spec _ 1 _
          (fun tk C => k ≤ tk ∧ tk ≤ min A.m_ncol (k + t) ∧ C.Shaped A.m_nrow B.m_ncol ∧
            ∀ i' j', i' < A.m_nrow → j' < B.m_ncol →
              C.val i' j' = dot A B i' j'
                (progress A.m_ncol i (min A.m_nrow (i + t)) j (min B.m_ncol (j + t))
                  (fun _ _ => tk) i' j'))
          _ fuel k C (le_refl 1) (by omega) ⟨le_refl k, by omega, hsh, ?_⟩ ?_ ?_
        · intro i' j' hi' hj'
          rw [hinv i' j' hi' hj']
          congr 1
          apply progress_inner
          intro _ _ _ _
          show min k A.m_ncol = k
          omega
        · intro tk C htk ⟨hktk, _, hsh, hinv⟩
          -- the rows of the tile
          refine forLoop_lt_spec _ 1 _
            (fun ti C => i ≤ ti ∧ ti ≤ min A.m_nrow (i + t) ∧ C.Shaped A.m_nrow B.m_ncol ∧
              ∀ i' j', i' < A.m_nrow → j' < B.m_ncol →
                C.val i' j' = dot A B i' j'
                  (progress A.m_ncol i (min A.m_nrow (i + t)) j (min B.m_ncol (j + t))
                    (fun i' _ => if i' < ti then tk + 1 else tk) i' j'))
            _ fuel i C (le_refl 1) (by omega) ⟨le_refl i, by omega, hsh, ?_⟩ ?_ ?_
          · intro i' j' hi' hj'
            rw [hinv i' j' hi' hj']
            congr 1
            apply progress_inner
            intro _ _ _ _
            split_ifs <;> omega
          · intro ti C hti ⟨hiti, _, hsh, hinv⟩
            rw [Matrix.get_eq A hA (by omega) (by omega), Res.ret_bind]
            -- the columns of the tile
            refine forLoop_lt_spec _ 1 _
              (fun tj C => j ≤ tj ∧ tj ≤ min B.m_ncol (j + t) ∧ C.Shaped A.m_nrow B.m_ncol ∧
                ∀ i' j', i' < A.m_nrow → j' < B.m_ncol →
                  C.val i' j' = dot A B i' j'
                    (progress A.m_ncol i (min A.m_nrow (i + t)) j (min B.m_ncol (j + t))
                      (fun i' j' => if i' < ti then tk + 1
                        else if i' = ti then (if j' < tj then tk + 1 else tk) else tk) i' j'))
              _ fuel j C (le_refl 1) (by omega) ⟨le_refl j, by omega, hsh, ?_⟩ ?_ ?_
            · intro i' j' hi' hj'
              rw [hinv i' j' hi' hj']
              congr 1
              apply progress_inner
              intro _ _ _ _
              split_ifs <;> omega
            · intro tj C htj ⟨hjtj, _, hsh, hinv⟩
              have hti' : ti < A.m_nrow := by omega
              have htj' : tj < B.m_ncol := by omega
              have htk' : tk < A.m_ncol := by omega
              rw [Matrix.get_eq C hsh.wf (by rw [hsh.1]; exact hti') (by rw [hsh.2.1]; exact htj'),
                Res.ret_bind, Matrix.get_eq B hB (by omega) htj', Res.ret_bind]
              obtain ⟨C', hset, hsh', hval⟩ := Matrix.set_spec C hsh hti' htj'
                (C.val ti tj + A.val ti tk * B.val tk tj)
              refine ⟨C', hset, by omega, by omega, hsh', ?_⟩
              intro i' j' hi' hj'
              rw [hval i' j' hj']
              by_cases hcell : i' = ti ∧ j' = tj
              · obtain ⟨h1, h2⟩ := hcell
                subst h1; subst h2
                rw [if_pos ⟨rfl, rfl⟩, hinv i' j' hi' hj']
                have e1 : progress A.m_ncol i (min A.m_nrow (i + t)) j (min B.m_ncol (j + t))
                    (fun i'' j'' => if i'' < i' then tk + 1
                      else if i'' = i' then (if j'' < j' then tk + 1 else tk) else tk) i' j'
                    = progress A.m_ncol i (min A.m_nrow (i + t)) j (min B.m_ncol (j + t))
                      (fun _ _ => tk) i' j' := by
                  apply progress_inner
                  intro _ _ _ _
                  simp
                have e2 : progress A.m_ncol i (min A.m_nrow (i + t)) j (min B.m_ncol (j + t))
                    (fun i'' j'' => if i'' < i' then tk + 1
                      else if i'' = i' then (if j'' < j' + 1 then tk + 1 else tk) else tk) i' j'
                    = progress A.m_ncol i (min A.m_nrow (i + t)) j (min B.m_ncol (j + t))
                      (fun _ _ => tk + 1) i' j' := by
                  apply progress_inner
                  intro _ _ _ _
                  simp
                have e3 : progress A.m_ncol i (min A.m_nrow (i + t)) j (min B.m_ncol (j + t))
                    (fun _ _ => tk + 1) i' j'
                    = progress A.m_ncol i (min A.m_nrow (i + t)) j (min B.m_ncol (j + t))
                      (fun _ _ => tk) i' j' + 1 := by
                  simp only [progress]
                  rw [if_neg (by omega), if_pos (by omega), if_neg (by omega), if_pos (by omega),
                    if_neg (by omega), if_pos (by omega), if_neg (by omega), if_pos (by omega)]
                have e4 : progress A.m_ncol i (min A.m_nrow (i + t)) j (min B.m_ncol (j + t))
                    (fun _ _ => tk) i' j' = tk := by
                  simp only [progress]
                  rw [if_neg (by omega), if_pos (by omega), if_neg (by omega), if_pos (by omega)]
                rw [e1, e2, e3, e4, dot_succ]
              · rw [if_neg hcell, hinv i' j' hi' hj']
                congr 1
                apply progress_inner
                intro _ _ _ _
                split_ifs <;> omega
            · intro tj C htj ⟨hjtj, htjle, hsh, hinv⟩
              refine ⟨by omega, by omega, hsh, ?_⟩
              intro i' j' hi' hj'
              rw [hinv i' j' hi' hj']
              congr 1
              apply progress_inner
              intro _ _ _ _
              split_ifs <;> omega
          · intro ti C hti ⟨hiti, htile, hsh, hinv⟩
            refine ⟨by omega, by omega, hsh, ?_⟩
            intro i' j' hi' hj'
            rw [hinv i' j' hi' hj']
            congr 1
            apply progress_inner
            intro _ _ _ _
            split_ifs <;> omega
        · intro tk C htk ⟨hktk, htkle, hsh, hinv⟩
          refine ⟨hsh, ?_⟩
          intro i' j' hi' hj'
          rw [hinv i' j' hi' hj']
          congr 1
          apply progress_inner
          intro _ _ _ _
          show tk = min (k + t) A.m_ncol
          omega
      · intro k C hk ⟨hsh, hinv⟩
        refine ⟨hsh, ?_⟩
        intro i' j' hi' hj'
        rw [hinv i' j' hi' hj']
        congr 1
        simp only [progress]
        split_ifs <;> omega
    · intro j C hj ⟨hsh, hinv⟩
      refine ⟨hsh, ?_⟩
      intro i' j' hi' hj'
      rw [hinv i' j' hi' hj']
      congr 1
      simp only [progress]
      split_ifs <;> omega
  · intro i C hi ⟨hsh, hinv⟩
    refine ⟨hsh, ?_⟩
    intro i' j' hi' hj'
    rw [hinv i' j' hi' hj']
    congr 1
    simp only [progress]
    split_ifs <;> omega

end Cycatz

namespace Cycatz

variable {α : Type}

/-- Two matrices of the same shape whose cells agree are the same matrix. -/
theorem Matrix.eq_of_val [Zero α] {C D : Matrix α} {R Cn : Nat} (hC : C.Shaped R Cn)
    (hD : D.Shaped R Cn) (h : ∀ i j, i < R → j < Cn → C.val i j = D.val i j) : C = D := by
  obtain ⟨c1, c2, c3⟩ := hC
  obtain ⟨d1, d2, d3⟩ := hD
  have hl : C.m_elems = D.m_elems := by
    apply List.ext_getElem (by rw [c3, d3])
    intro n h1 h2
    have hpos : 0 < Cn := by
      rcases Nat.eq_zero_or_pos Cn with h0 | h0
      · rw [c3, h0] at h1; simp at h1
      · exact h0
    have hn : n / Cn * Cn + n % Cn = n := Nat.div_add_mod' n Cn
    have hdiv : n / Cn < R := by
      rw [Nat.div_lt_iff_lt_mul hpos]; rw [c3] at h1; exact h1
    have := h (n / Cn) (n % Cn) hdiv (Nat.mod_lt _ hpos)
    simp only [Matrix.val, c2, d2, hn, List.getD_eq_getElem?_getD,
      List.getElem?_eq_getElem h1, List.getElem?_eq_getElem h2, Option.getD_some] at this
    exact this
  cases C
  cases D
  simp only at c1 c2 d1 d2 hl
  simp [c1, c2, d1, d2, hl]

end Cycatz

namespace LittleLaGi

variable {α : Type}

theorem Matrix.create_shaped_ll (raw : Nat → α) (R Cn : Nat) :
    (Matrix.create raw R Cn).Shaped R Cn := by
  refine ⟨rfl, rfl, ?_⟩
  simp only [Matrix.create, Matrix.reset_buffer, Vec.reserve, Vec.capacity, Vec.empty]
  split_ifs with h
  · simp
  · have h0 : R * Cn = 0 := Nat.eq_zero_of_not_pos (by simpa using h)
    rw [h0]; rfl

theorem Matrix.create_size_ll (raw : Nat → α) (R Cn : Nat) : (Matrix.create raw R Cn).data.size = 0 := by
  simp only [Matrix.create, Matrix.reset_buffer, Vec.reserve, Vec.capacity, Vec.empty]
  split_ifs <;> rfl

theorem Matrix.create_val_ll [Zero α] (raw : Nat → α) (R Cn i j : Nat) (hi : i < R) (hj : j < Cn) :
    (Matrix.create raw R Cn).val i j = raw (i * Cn + j) := by
  have hlt : i * Cn + j < R * Cn := idx_lt hi hj
  simp only [Matrix.val, Matrix.index, Matrix.create, Matrix.reset_buffer, Vec.reserve,
    Vec.capacity, Vec.empty]
  rw [if_pos (by simp; omega)]
  simp [List.getD_eq_getElem?_getD, hlt]

theorem Matrix.Shaped.wf_ll {m : Matrix α} {R Cn : Nat} (h : m.Shaped R Cn) : m.WF := by
  obtain ⟨h1, h2, h3⟩ := h
  simp [Matrix.WF, h1, h2, h3]

theorem Matrix.get_eq_ll [Zero α] (m : Matrix α) (hm : m.WF) {i j : Nat} (hi : i < m.nrow)
    (hj : j < m.ncol) : m.get i j = Res.ret (m.val i j) := by
  have hlen : i * m.ncol + j < m.data.cells.length :=
    lt_of_lt_of_le (idx_lt hi hj) hm
  simp [Matrix.get, Matrix.val, Matrix.index, Vec.read, List.getElem?_eq_getElem hlen,
    List.getD_eq_getElem?_getD]

theorem Matrix.set_spec_ll [Zero α] (m : Matrix α) {R Cn i j : Nat} (hm : m.Shaped R Cn) (hi : i < R)
    (hj : j < Cn) (v : α) :
    ∃ m', m.set i j v = Res.ret m' ∧ m'.Shaped R Cn ∧ m'.data.size = m.data.size ∧
      ∀ i' j', j' < Cn → m'.val i' j' = if i' = i ∧ j' = j then v else m.val i' j' := by
  obtain ⟨h1, h2, h3⟩ := hm
  have hlen : i * m.ncol + j < m.data.cells.length := by rw [h3, h2]; exact idx_lt hi hj
  refine ⟨{ m with data := { m.data with cells := m.data.cells.set (i * m.ncol + j) v } },
    ?_, ⟨h1, h2, ?_⟩, rfl, ?_⟩
  · simp [Matrix.set, Vec.write, Matrix.index, hlen]
  · simp [h3]
  · intro i' j' hj'
    simp only [Matrix.val, Matrix.index]
    exact getD_set_rm m.data.cells 0 v hlen (by omega) (by omega)

theorem multiply_naive_spec_ll [Zero α] [Add α] [Mul α] (raw : Nat → α) (m1 m2 : Matrix α)
    (h1 : m1.WF) (h2 : m2.WF) (h12 : m1.ncol = m2.nrow) (fuel : Nat) (hR : m1.nrow < fuel)
    (hK : m1.ncol < fuel) (hC : m2.ncol < fuel) :
    ∃ m, multiply_naive fuel raw m1 m2 = Res.ret m ∧ m.Shaped m1.nrow m2.ncol ∧
      ∀ i j, i < m1.nrow → j < m2.ncol → m.val i j = dot m1 m2 i j m1.ncol := by
  unfold multiply_naive
  rw [if_neg (by simpa using h12)]
  refine forLoop_lt_spec _ 1 _
    (fun i m => i ≤ m1.nrow ∧ m.Shaped m1.nrow m2.ncol ∧
      ∀ i' j', i' < i → j' < m2.ncol → m.val i' j' = dot m1 m2 i' j' m1.ncol)
    _ fuel 0 _ (le_refl 1) (by omega)
    ⟨by omega, Matrix.create_shaped_ll _ _ _, by intro i' j' h; omega⟩ ?_ ?_
  · intro i m hc ⟨_, hsh, hdone⟩
    refine forLoop_lt_spec _ 1 _
      (fun j m' => j ≤ m2.ncol ∧ m'.Shaped m1.nrow m2.ncol ∧
        (∀ i' j', i' < i → j' < m2.ncol → m'.val i' j' = dot m1 m2 i' j' m1.ncol) ∧
        ∀ j', j' < j → m'.val i j' = dot m1 m2 i j' m1.ncol)
      _ fuel 0 m (le_refl 1) (by omega)
      ⟨by omega, hsh, hdone, by intro j' h; omega⟩ ?_ ?_
    · intro j m' hcj ⟨_, hsh', hrows, hrow⟩
      refine bind_spec _ _ (fun result => result = dot m1 m2 i j m1.ncol) _ ?_ ?_
      · refine forLoop_lt_spec _ 1 _ (fun k result => k ≤ m1.ncol ∧ result = dot m1 m2 i j k)
          _ fuel 0 0 (le_refl 1) (by omega) ⟨by omega, rfl⟩ ?_ ?_
        · intro k result hk ⟨_, hsum⟩
          refine ⟨result + m1.val i k * m2.val k j, ?_, by omega, ?_⟩
          · rw [Matrix.get_eq_ll m1 h1 hc hk, Res.ret_bind,
              Matrix.get_eq_ll m2 h2 (by omega) hcj, Res.ret_bind]
          · rw [hsum, dot, dot, foldl_range_succ]
        · intro k result hk ⟨hle, hsum⟩
          have : k = m1.ncol := by omega
          rw [hsum, this]
      · intro result hsum
        obtain ⟨m'', hset, hsh'', _, hval⟩ := Matrix.set_spec_ll m' hsh' hc hcj result
        refine ⟨m'', hset, by omega, hsh'', ?_, ?_⟩
        · intro i' j' hi' hj'
          rw [hval i' j' hj', if_neg (by omega)]
          exact hrows i' j' hi' hj'
        · intro j' hj'
          rw [hval i j' (by omega)]
          by_cases h : j' = j
          · subst h; simp [hsum]
          · rw [if_neg (by simp [h])]
            exact hrow j' (by omega)
    · intro j m' hcj ⟨hle, hsh', hrows, hrow⟩
      have hj : j = m2.ncol := by omega
      subst hj
      refine ⟨by omega, hsh', ?_⟩
      intro i' j' hi' hj'
      by_cases h : i' = i
      · subst h; exact hrow j' hj'
      · exact hrows i' j' (by omega) hj'
  · intro i m hc ⟨hle, hsh, hdone⟩
    have hi : i = m1.nrow := by omega
    subst hi
    exact ⟨hsh, hdone⟩

end LittleLaGi

/-! ## The tiled product of the LittleLaGi variant -/

namespace LittleLaGi

variable {α : Type}

theorem accum_succ [Zero α] [Add α] [Mul α] (m1 m2 : Matrix α) (c : α) (i j n : Nat) :
    accum m1 m2 c i j (n + 1) = accum m1 m2 c i j n + m1.val i n * m2.val n j := by
  rw [accum, accum, foldl_range_succ]

/-- In a commutative ring the accumulation started from `c` is `c` plus the naive sum. -/
theorem accum_eq_add_dot [CommRing α] (m1 m2 : Matrix α) (c : α) (i j n : Nat) :
    accum m1 m2 c i j n = c + dot m1 m2 i j n := by
  induction n with
  | zero => simp [accum, dot]
  | succ n ih =>
    rw [accum_succ, ih]
    have hd : dot m1 m2 i j (n + 1) = dot m1 m2 i j n + m1.val i n * m2.val n j := by
      rw [dot, dot, foldl_range_succ]
    rw [hd, add_assoc]

/-- Every cell of the tiled product receives its products in increasing `k`, on top of what
the reserved storage held at the cell's offset. -/
theorem multiply_tile_spec_ll [Zero α] [Add α] [Mul α] (raw : Nat → α) (m1 m2 : Matrix α)
    (h1 : m1.WF) (h2 : m2.WF) (h12 : m1.ncol = m2.nrow) (t : Nat) (ht : 1 ≤ t) (fuel : Nat)
    (hR : m1.nrow < fuel) (hK : m1.ncol < fuel) (hC : m2.ncol < fuel) :
    ∃ m, multiply_tile fuel raw m1 m2 t = Res.ret m ∧ m.Shaped m1.nrow m2.ncol ∧
      ∀ i j, i < m1.nrow → j < m2.ncol →
        m.val i j = accum m1 m2 (raw (i * m2.ncol + j)) i j m1.ncol := by
  unfold multiply_tile
  simp only []
  -- row tiles
  refine forLoop_lt_spec _ t _
    (fun it m => m.Shaped m1.nrow m2.ncol ∧
      ∀ i' j', i' < m1.nrow → j' < m2.ncol →
        m.val i' j' = accum m1 m2 (raw (i' * m2.ncol + j')) i' j'
          (Cycatz.progress m1.ncol it it 0 0 (fun _ _ => 0) i' j'))
    _ fuel 0 _ ht (by omega) ⟨Matrix.create_shaped_ll _ _ _, ?_⟩ ?_ ?_
  · intro i' j' hi' hj'
    rw [Matrix.create_val_ll raw _ _ i' j' hi' hj']
    simp [Cycatz.progress, accum]
  · intro it m hit ⟨hsh, hinv⟩
    -- column tiles
    refine forLoop_lt_spec _ t _
      (fun jt m => m.Shaped m1.nrow m2.ncol ∧
        ∀ i' j', i' < m1.nrow → j' < m2.ncol →
          m.val i' j' = accum m1 m2 (raw (i' * m2.ncol + j')) i' j'
            (Cycatz.progress m1.ncol it (min m1.nrow (it + t)) jt jt (fun _ _ => 0) i' j'))
      _ fuel 0 m ht (by omega) ⟨hsh, ?_⟩ ?_ ?_
    · intro i' j' hi' hj'
      rw [hinv i' j' hi' hj']
      congr 1
      simp only [Cycatz.progress]
      split_ifs <;> omega
    · intro jt m hjt ⟨hsh, hinv⟩
      -- tiles of the shared dimension
      refine forLoop_lt_spec _ t _
        (fun kt m => m.Shaped m1.nrow m2.ncol ∧
          ∀ i' j', i' < m1.nrow → j' < m2.ncol →
            m.val i' j' = accum m1 m2 (raw (i' * m2.ncol + j')) i' j'
              (Cycatz.progress m1.ncol it (min m1.nrow (it + t)) jt (min m2.ncol (jt + t))
                (fun _ _ => min kt m1.ncol) i' j'))
        _ fuel 0 m ht (by omega) ⟨hsh, ?_⟩ ?_ ?_
      · intro i' j' hi' hj'
        rw [hinv i' j' hi' hj']
        congr 1
        simp only [Cycatz.progress]
        split_ifs <;> omega
      · intro kt m hkt ⟨hsh, hinv⟩
        -- the rows of the tile
        refine forLoop_and_spec t it m1.nrow _
          (fun i m => it + i ≤ min m1.nrow (it + t) ∧ m.Shaped m1.nrow m2.ncol ∧
            ∀ i' j', i' < m1.nrow → j' < m2.ncol →
              m.val i' j' = accum m1 m2 (raw (i' * m2.ncol + j')) i' j'
                (Cycatz.progress m1.ncol it (min m1.nrow (it + t)) jt (min m2.ncol (jt + t))
                  (fun i' _ => if i' < it + i then min (kt + t) m1.ncol else kt) i' j'))
          _ fuel 0 m (by omega) ⟨by omega, hsh, ?_⟩ ?_ ?_
        · intro i' j' hi' hj'
          rw [hinv i' j' hi' hj']
          congr 1
          apply Cycatz.progress_inner
          intro _ _ _ _
          show min kt m1.ncol = if i' < it + 0 then min (kt + t) m1.ncol else kt
          rw [if_neg (by omega)]
          omega
        · intro i m hi hi2 ⟨_, hsh, hinv⟩
          -- the products of the k-tile for this row
          refine forLoop_and_spec t kt m1.ncol _
            (fun k m => kt + k ≤ min (kt + t) m1.ncol ∧ m.Shaped m1.nrow m2.ncol ∧
              ∀ i' j', i' < m1.nrow → j' < m2.ncol →
                m.val i' j' = accum m1 m2 (raw (i' * m2.ncol + j')) i' j'
                  (Cycatz.progress m1.ncol it (min m1.nrow (it + t)) jt (min m2.ncol (jt + t))
                    (fun i' _ => if i' < it + i then min (kt + t) m1.ncol
                      else if i' = it + i then kt + k else kt) i' j'))
            _ fuel 0 m (by omega) ⟨by omega, hsh, ?_⟩ ?_ ?_
          · intro i' j' hi' hj'
            rw [hinv i' j' hi' hj']
            congr 1
            apply Cycatz.progress_inner
            intro _ _ _ _
            split_ifs <;> omega
          · intro k m hk hk2 ⟨_, hsh, hinv⟩
            rw [Matrix.get_eq_ll m1 h1 hi2 hk2, Res.ret_bind]
            -- the columns of the tile
            refine forLoop_and_spec t jt m2.ncol _
              (fun j m => jt + j ≤ min m2.ncol (jt + t) ∧ m.Shaped m1.nrow m2.ncol ∧
                ∀ i' j', i' < m1.nrow → j' < m2.ncol →
                  m.val i' j' = accum m1 m2 (raw (i' * m2.ncol + j')) i' j'
                    (Cycatz.progress m1.ncol it (min m1.nrow (it + t)) jt (min m2.ncol (jt + t))
                      (fun i' j' => if i' < it + i then min (kt + t) m1.ncol
                        else if i' = it + i then (if j' < jt + j then kt + k + 1 else kt + k)
                        else kt) i' j'))
              _ fuel 0 m (by omega) ⟨by omega, hsh, ?_⟩ ?_ ?_
            · intro i' j' hi' hj'
              rw [hinv i' j' hi' hj']
              congr 1
              apply Cycatz.progress_inner
              intro _ _ _ _
              split_ifs <;> omega
            · intro j m hj hj2 ⟨_, hsh, hinv⟩
              rw [Matrix.get_eq_ll m hsh.wf_ll (by rw [hsh.1]; exact hi2)
                  (by rw [hsh.2.1]; exact hj2),
                Res.ret_bind, Matrix.get_eq_ll m2 h2 (by omega) hj2, Res.ret_bind]
              obtain ⟨m', hset, hsh', _, hval⟩ := Matrix.set_spec_ll m hsh hi2 hj2
                (m.val (it + i) (jt + j) + m1.val (it + i) (kt + k) * m2.val (kt + k) (jt + j))
              refine ⟨m', hset, by omega, hsh', ?_⟩
              intro i' j' hi' hj'
              rw [hval i' j' hj']
              by_cases hcell : i' = it + i ∧ j' = jt + j
              · obtain ⟨e1, e2⟩ := hcell
                subst e1; subst e2
                rw [if_pos ⟨rfl, rfl⟩, hinv _ _ hi' hj']
                have p1 : Cycatz.progress m1.ncol it (min m1.nrow (it + t)) jt
                    (min m2.ncol (jt + t))
                    (fun i' j' => if i' < it + i then min (kt + t) m1.ncol
                      else if i' = it + i then (if j' < jt + j then kt + k + 1 else kt + k)
                      else kt) (it + i) (jt + j) = kt + k := by
                  simp only [Cycatz.progress]
                  split_ifs <;> omega
                have p2 : Cycatz.progress m1.ncol it (min m1.nrow (it + t)) jt
                    (min m2.ncol (jt + t))
                    (fun i' j' => if i' < it + i then min (kt + t) m1.ncol
                      else if i' = it + i then (if j' < jt + (j + 1) then kt + k + 1 else kt + k)
                      else kt) (it + i) (jt + j) = kt + k + 1 := by
                  simp only [Cycatz.progress]
                  split_ifs <;> omega
                rw [p1]
                refine Eq.trans ?_ (congrArg (accum m1 m2 _ _ _) p2.symm)
                rw [accum_succ]
              · rw [if_neg hcell, hinv i' j' hi' hj']
                congr 1
                apply Cycatz.progress_inner
                intro _ _ _ _
                split_ifs <;> omega
            · intro j m hj ⟨hle, hsh, hinv⟩
              refine ⟨by omega, hsh, ?_⟩
              intro i' j' hi' hj'
              rw [hinv i' j' hi' hj']
              congr 1
              apply Cycatz.progress_inner
              intro _ _ _ _
              split_ifs <;> omega
          · intro k m hk ⟨hle, hsh, hinv⟩
            refine ⟨by omega, hsh, ?_⟩
            intro i' j' hi' hj'
            rw [hinv i' j' hi' hj']
            congr 1
            apply Cycatz.progress_inner
            intro _ _ _ _
            split_ifs <;> omega
        · intro i m hi ⟨hle, hsh, hinv⟩
          refine ⟨hsh, ?_⟩
          intro i' j' hi' hj'
          rw [hinv i' j' hi' hj']
          congr 1
          apply Cycatz.progress_inner
          intro _ _ _ _
          show (if i' < it + i then min (kt + t) m1.ncol else kt) = min (kt + t) m1.ncol
          rw [if_pos (by omega)]
      · intro kt m hkt ⟨hsh, hinv⟩
        refine ⟨hsh, ?_⟩
        intro i' j' hi' hj'
        rw [hinv i' j' hi' hj']
        congr 1
        simp only [Cycatz.progress]
        split_ifs <;> omega
    · intro jt m hjt ⟨hsh, hinv⟩
      refine ⟨hsh, ?_⟩
      intro i' j' hi' hj'
      rw [hinv i' j' hi' hj']
      congr 1
      simp only [Cycatz.progress]
      split_ifs <;> omega
  · intro it m hit ⟨hsh, hinv⟩
    refine ⟨hsh, ?_⟩
    intro i' j' hi' hj'
    rw [hinv i' j' hi' hj']
    congr 1
    simp only [Cycatz.progress]
    split_ifs <;> omega

end LittleLaGi

/-! ## Tile size 0 -/

namespace Cycatz

variable {α : Type}

/-- With `tile_width = 0` and at least one row, the outer loop of `multiply_tile` tests
`0 < A_row` for ever: no fuel is enough. -/
theorem multiply_tile_zero_stuck [Zero α] [Add α] [Mul α] (A B : Matrix α)
    (hAB : A.ncol = B.nrow) (hR : 0 < A.nrow) (fuel : Nat) :
    multiply_tile fuel A B 0 = Res.timeout := by
  unfold multiply_tile
  simp only [Matrix.nrow, Matrix.ncol] at *
  rw [if_neg (by simpa using hAB)]
  apply forLoop_stuck _ _ _ 0 (by simpa using hR) rfl
  intro s
  apply forLoop_ret_or_timeout
  intro j s
  apply forLoop_ret_or_timeout
  intro k s
  cases fuel with
  | zero => exact Or.inl rfl
  | succ n => exact Or.inr ⟨s, forLoop_skip _ _ _ n k s (by simp)⟩

/-- Without rows, both products are the empty result, for any tile width. -/
theorem multiply_empty [Zero α] [Add α] [Mul α] (A B : Matrix α) (hAB : A.ncol = B.nrow)
    (hR : A.nrow = 0) (t fuel : Nat) :
    multiply_tile (fuel + 1) A B t = Res.ret (Matrix.create 0 B.ncol) ∧
    multiply_naive (fuel + 1) A B = Res.ret (Matrix.create 0 B.ncol) := by
  unfold multiply_tile multiply_naive
  simp only [Matrix.nrow, Matrix.ncol] at *
  rw [if_neg (by simpa using hAB), if_neg (by simpa using hAB)]
  exact ⟨(forLoop_skip _ _ _ fuel 0 _ (by simp [hR])).trans (by rw [hR]),
    (forLoop_skip _ _ _ fuel 0 _ (by simp [hR])).trans (by rw [hR])⟩

end Cycatz

namespace LittleLaGi

variable {α : Type}

/-- With `tsize = 0` and at least one row, the outer loop of `multiply_tile` never advances. -/
theorem multiply_tile_zero_stuck_ll [Add α] [Mul α] (raw : Nat → α) (m1 m2 : Matrix α)
    (hR : 0 < m1.nrow) (fuel : Nat) :
    multiply_tile fuel raw m1 m2 0 = Res.timeout := by
  unfold multiply_tile
  apply forLoop_stuck _ _ _ 0 (by simpa using hR) rfl
  intro s
  apply forLoop_ret_or_timeout
  intro j s
  apply forLoop_ret_or_timeout
  intro k s
  cases fuel with
  | zero => exact Or.inl rfl
  | succ n => exact Or.inr ⟨s, forLoop_skip _ _ _ n 0 s (by simp)⟩

/-- Without rows, both products are the empty result, for any tile size. -/
theorem multiply_empty_ll [Zero α] [Add α] [Mul α] (raw : Nat → α) (m1 m2 : Matrix α)
    (h12 : m1.ncol = m2.nrow) (hR : m1.nrow = 0) (t fuel : Nat) :
    multiply_tile (fuel + 1) raw m1 m2 t = Res.ret (Matrix.create raw 0 m2.ncol) ∧
    multiply_naive (fuel + 1) raw m1 m2 = Res.ret (Matrix.create raw 0 m2.ncol) := by
  unfold multiply_tile multiply_naive
  rw [if_neg (by simpa using h12)]
  exact ⟨(forLoop_skip _ _ _ fuel 0 _ (by simp [hR])).trans (by rw [hR]),
    (forLoop_skip _ _ _ fuel 0 _ (by simp [hR])).trans (by rw [hR])⟩

end LittleLaGi

/-! ## Which exceptions can be thrown -/

theorem bind_ne_throw {σ τ : Type} (r : Res σ) (f : σ → Res τ) (e : Exn)
    (hr : r ≠ Res.throw e) (hf : ∀ v, f v ≠ Res.throw e) : (r >>= f) ≠ Res.throw e := by
  cases r with
  | ret v => exact hf v
  | throw e' =>
    intro h
    apply hr
    simpa using h
  | undef => intro h; exact Res.noConfusion h
  | timeout => intro h; exact Res.noConfusion h

namespace Cycatz

variable {α : Type}

theorem Matrix.get_ne_invalid (A : Matrix α) (i j : Nat) :
    A.get i j ≠ Res.throw Exn.invalid_argument := by
  unfold Matrix.get Matrix.check_range
  split_ifs
  · intro h; simp at h
  · rw [Res.ret_bind]
    split <;> intro h <;> exact Res.noConfusion h

theorem Matrix.set_ne_invalid (A : Matrix α) (i j : Nat) (v : α) :
    A.set i j v ≠ Res.throw Exn.invalid_argument := by
  unfold Matrix.set Matrix.check_range
  split_ifs <;> simp

theorem multiply_naive_throw_iff [Zero α] [Add α] [Mul α] (fuel : Nat) (A B : Matrix α) :
    multiply_naive fuel A B = Res.throw Exn.invalid_argument ↔ A.ncol ≠ B.nrow := by
  constructor
  · intro h
    by_contra hAB
    revert h
    unfold multiply_naive
    rw [if_neg (not_not.mpr hAB)]
    apply forLoop_ne_throw
    intro i C
    apply forLoop_ne_throw
    intro j C
    apply bind_ne_throw
    · apply forLoop_ne_throw
      intro k sum
      apply bind_ne_throw _ _ _ (Matrix.get_ne_invalid A i k)
      intro a
      apply bind_ne_throw _ _ _ (Matrix.get_ne_invalid B k j)
      intro b h
      exact Res.noConfusion h
    · intro sum
      exact Matrix.set_ne_invalid C i j sum
  · intro h
    unfold multiply_naive
    rw [if_pos h]

theorem multiply_tile_throw_iff [Zero α] [Add α] [Mul α] (fuel : Nat) (A B : Matrix α)
    (t : Nat) :
    multiply_tile fuel A B t = Res.throw Exn.invalid_argument ↔ A.ncol ≠ B.nrow := by
  constructor
  · intro h
    by_contra hAB
    revert h
    unfold multiply_tile
    simp only []
    rw [if_neg (not_not.mpr hAB)]
    apply forLoop_ne_throw
    intro i C
    apply forLoop_ne_throw
    intro j C
    apply forLoop_ne_throw
    intro k C
    apply forLoop_ne_throw
    intro tk C
    apply forLoop_ne_throw
    intro ti C
    apply bind_ne_throw _ _ _ (Matrix.get_ne_invalid A ti tk)
    intro a
    apply forLoop_ne_throw
    intro tj C
    apply bind_ne_throw _ _ _ (Matrix.get_ne_invalid C ti tj)
    intro c
    apply bind_ne_throw _ _ _ (Matrix.get_ne_invalid B tk tj)
    intro b
    exact Matrix.set_ne_invalid C ti tj _
  · intro h
    unfold multiply_tile
    simp only []
    rw [if_pos h]

theorem multiply_mkl_throw_iff [Zero α]
    (dgemm : Nat → Nat → Nat → List α → Nat → List α → Nat → List α → Nat → List α)
    (A B : Matrix α) :
    multiply_mkl dgemm A B = Res.throw Exn.invalid_argument ↔ A.ncol ≠ B.nrow := by
  unfold multiply_mkl
  constructor
  · intro h
    by_contra hAB
    rw [if_neg (not_not.mpr hAB)] at h
    exact Res.noConfusion h
  · intro h
    rw [if_pos h]

end Cycatz

namespace LittleLaGi

variable {α : Type}

theorem Vec.read_ne_throw (v : Vec α) (idx : Nat) (e : Exn) : v.read idx ≠ Res.throw e := by
  unfold Vec.read
  split <;> intro h <;> exact Res.noConfusion h

theorem Matrix.set_ne_throw (m : Matrix α) (i j : Nat) (x : α) (e : Exn) :
    m.set i j x ≠ Res.throw e := by
  unfold Matrix.set Vec.write
  split_ifs
  · rw [Res.ret_bind]; intro h; exact Res.noConfusion h
  · intro h; exact Res.noConfusion h

/-- The tiled product of this variant has no shape check: it throws nothing at all. -/
theorem multiply_tile_ne_throw [Add α] [Mul α] (fuel : Nat) (raw : Nat → α) (m1 m2 : Matrix α)
    (tsize : Nat) (e : Exn) : multiply_tile fuel raw m1 m2 tsize ≠ Res.throw e := by
  unfold multiply_tile
  simp only []
  apply forLoop_ne_throw
  intro it m
  apply forLoop_ne_throw
  intro jt m
  apply forLoop_ne_throw
  intro kt m
  apply forLoop_ne_throw
  intro i m
  apply forLoop_ne_throw
  intro k m
  apply bind_ne_throw _ _ _ (Vec.read_ne_throw _ _ e)
  intro a
  apply forLoop_ne_throw
  intro j m
  apply bind_ne_throw _ _ _ (Vec.read_ne_throw _ _ e)
  intro c
  apply bind_ne_throw _ _ _ (Vec.read_ne_throw _ _ e)
  intro b
  exact Matrix.set_ne_throw m _ _ _ e

end LittleLaGi

/-! ## Identity and equality -/

namespace Cycatz

variable {α : Type}

/-- Against an identity on the right, the accumulated sum is `A(i,j)` once `k` has passed `j`. -/
theorem dot_identity [CommRing α] (A I : Matrix α) (n i j : Nat) (hj : j < n)
    (hI : ∀ k l, k < n → l < n → I.val k l = if k = l then 1 else 0) :
    ∀ m, m ≤ n → dot A I i j m = if j < m then A.val i j else 0 := by
  intro m
  induction m with
  | zero => intro _; simp [dot_zero]
  | succ m ih =>
    intro hm
    rw [dot_succ, ih (by omega), hI m j (by omega) hj]
    by_cases h1 : j < m
    · have h2 : m ≠ j := by omega
      simp [h1, h2, Nat.lt_succ_of_lt h1]
    · by_cases h2 : m = j
      · subst h2; simp
      · have h3 : ¬ j < m + 1 := by omega
        simp [h1, h2, h3]

theorem Matrix.ret_inj {σ : Type} {a b : σ} (h : Res.ret a = Res.ret b) : a = b := by
  injection h

/-- The operator `==` on two well-formed matrices of one shape: `true` with no pair of cells
that `!=` tells apart, or `false` with a pair that it does. -/
theorem operator_eq_spec [Zero α] (ne : α → α → Bool) (X Y : Matrix α) (hX : X.WF) (hY : Y.WF)
    (hs : X.size = Y.size) (fuel : Nat) (hR : X.m_nrow < fuel) (hC : X.m_ncol < fuel) :
    (X.operator_eq ne fuel Y = Res.ret true ∧
      ∀ i j, i < X.m_nrow → j < X.m_ncol → ne (X.val i j) (Y.val i j) = false) ∨
    (X.operator_eq ne fuel Y = Res.ret false ∧
      ∃ i j, i < X.m_nrow ∧ j < X.m_ncol ∧ ne (X.val i j) (Y.val i j) = true) := by
  have hrow : X.m_nrow = Y.m_nrow := congrArg Prod.fst hs
  have hcol : X.m_ncol = Y.m_ncol := congrArg Prod.snd hs
  unfold Matrix.operator_eq
  rw [if_neg (not_not.mpr hs)]
  have key := forLoopR_lt_spec X.m_nrow
    (fun i (_ : Unit) =>
      forLoopR (fun j => decide (j < X.m_ncol)) (fun j => j + 1) (fun j (_ : Unit) => do
        let a ← X.get i j
        let b ← Y.get i j
        if ne a b then Res.ret (Flow.exit false) else Res.ret (Flow.next ())) fuel 0 ())
    (fun i _ => ∀ i' j', i' < i → j' < X.m_ncol → ne (X.val i' j') (Y.val i' j') = false)
    (fun _ => ∀ i' j', i' < X.m_nrow → j' < X.m_ncol → ne (X.val i' j') (Y.val i' j') = false)
    (fun r => r = false ∧
      ∃ i j, i < X.m_nrow ∧ j < X.m_ncol ∧ ne (X.val i j) (Y.val i j) = true)
    ?_ ?_ fuel 0 () (by omega) (by intro i' j' h; omega)
  · rcases key with ⟨s', h, hq⟩ | ⟨r, h, hr, hq⟩
    · left
      refine ⟨?_, hq⟩
      rw [h, Res.ret_bind]
    · right
      subst hr
      refine ⟨?_, hq⟩
      rw [h, Res.ret_bind]
  · intro i _ hi hinv
    refine forLoopR_lt_spec X.m_ncol _
      (fun j _ => ∀ j', j' < j → ne (X.val i j') (Y.val i j') = false)
      (fun _ => ∀ i' j', i' < i + 1 → j' < X.m_ncol → ne (X.val i' j') (Y.val i' j') = false)
      (fun r => r = false ∧
        ∃ i j, i < X.m_nrow ∧ j < X.m_ncol ∧ ne (X.val i j) (Y.val i j) = true)
      ?_ ?_ fuel 0 () (by omega) (by intro j' h; omega)
    · intro j _ hj hrowinv
      rw [Matrix.get_eq X hX hi hj, Res.ret_bind,
        Matrix.get_eq Y hY (by omega) (by omega), Res.ret_bind]
      by_cases hne : ne (X.val i j) (Y.val i j) = true
      · right
        exact ⟨false, by rw [if_pos hne], rfl, i, j, hi, hj, hne⟩
      · left
        refine ⟨(), by rw [if_neg hne], ?_⟩
        intro j' hj'
        by_cases h : j' = j
        · subst h; exact Bool.eq_false_iff.mpr hne
        · exact hrowinv j' (by omega)
    · intro j _ hj hrowinv i' j' hi' hj'
      by_cases h : i' = i
      · subst h; exact hrowinv j' (by omega)
      · exact hinv i' j' (by omega) hj'
  · intro i _ hi hinv i' j' hi' hj'
    exact hinv i' j' (by omega) hj'

/-- With different shapes `operator==` answers `false` before any loop: no fuel is used and
no element is read. -/
theorem operator_eq_shape (ne : α → α → Bool) (X Y : Matrix α) (hs : X.size ≠ Y.size)
    (fuel : Nat) : X.operator_eq ne fuel Y = Res.ret false := by
  unfold Matrix.operator_eq
  rw [if_pos hs]

end Cycatz

/-! ## Copies, moves and element access in the LittleLaGi variant -/

namespace LittleLaGi

variable {α : Type}

/-- An in-range write on a matrix whose storage covers its shape: shape and storage size
stay, the written cell reads the new value and every other cell reads as before. -/
theorem Matrix.set_spec_wf [Zero α] (m : Matrix α) {i j : Nat} (hm : m.WF) (hi : i < m.nrow)
    (hj : j < m.ncol) (v : α) :
    ∃ m', m.set i j v = Res.ret m' ∧ m'.nrow = m.nrow ∧ m'.ncol = m.ncol ∧
      m'.data.cells.length = m.data.cells.length ∧ m'.data.size = m.data.size ∧
      ∀ i' j', j' < m.ncol → m'.val i' j' = if i' = i ∧ j' = j then v else m.val i' j' := by
  have hlen : i * m.ncol + j < m.data.cells.length := lt_of_lt_of_le (idx_lt hi hj) hm
  refine ⟨{ m with data := { m.data with cells := m.data.cells.set (i * m.ncol + j) v } },
    ?_, rfl, rfl, ?_, rfl, ?_⟩
  · simp [Matrix.set, Vec.write, Matrix.index, hlen]
  · simp
  · intro i' j' hj'
    simp only [Matrix.val, Matrix.index]
    exact getD_set_rm m.data.cells 0 v hlen hj hj'

/-- After `reset_buffer` the matrix has the new shape and storage that covers it; the
vector still has the elements it had. -/
theorem Matrix.reset_buffer_spec (raw : Nat → α) (m : Matrix α) (R Cn : Nat) :
    (m.reset_buffer raw R Cn).nrow = R ∧ (m.reset_buffer raw R Cn).ncol = Cn ∧
    R * Cn ≤ (m.reset_buffer raw R Cn).data.cells.length ∧
    (m.reset_buffer raw R Cn).data.size = m.data.size := by
  refine ⟨rfl, rfl, ?_, ?_⟩
  · simp only [Matrix.reset_buffer, Vec.reserve, Vec.capacity]
    split_ifs with h
    · simp
    · omega
  · simp only [Matrix.reset_buffer, Vec.reserve]
    split_ifs <;> rfl

/-- The two copy loops, shared by the copy constructor and the assignment: every cell of the
target ends as the cell of the source. -/
theorem copy_loops_spec [Zero α] (S this : Matrix α) (R Cn : Nat) (hS : S.WF)
    (hSr : S.nrow = R) (hSc : S.ncol = Cn) (hTr : this.nrow = R) (hTc : this.ncol = Cn)
    (hT : R * Cn ≤ this.data.cells.length) (fuel : Nat) (hR : R < fuel) (hC : Cn < fuel) :
    ∃ M, forLoop (fun i => decide (i < R)) (fun i => i + 1) (fun i this' =>
        forLoop (fun j => decide (j < Cn)) (fun j => j + 1) (fun j this' => do
          let x ← S.get i j
          this'.set i j x) fuel 0 this') fuel 0 this = Res.ret M ∧
      M.nrow = R ∧ M.ncol = Cn ∧ M.data.cells.length = this.data.cells.length ∧
      M.data.size = this.data.size ∧
      ∀ i j, i < R → j < Cn → M.val i j = S.val i j := by
  refine forLoop_lt_spec _ 1 _
    (fun i M => M.nrow = R ∧ M.ncol = Cn ∧ M.data.cells.length = this.data.cells.length ∧
      M.data.size = this.data.size ∧
      ∀ i' j', i' < i → j' < Cn → M.val i' j' = S.val i' j')
    _ fuel 0 this (le_refl 1) (by omega)
    ⟨hTr, hTc, rfl, rfl, by intro i' j' h; omega⟩ ?_ ?_
  · intro i M hi ⟨hMr, hMc, hMl, hMs, hdone⟩
    refine forLoop_lt_spec _ 1 _
      (fun j M' => M'.nrow = R ∧ M'.ncol = Cn ∧
        M'.data.cells.length = this.data.cells.length ∧ M'.data.size = this.data.size ∧
        (∀ i' j', i' < i → j' < Cn → M'.val i' j' = S.val i' j') ∧
        ∀ j', j' < j → M'.val i j' = S.val i j')
      _ fuel 0 M (le_refl 1) (by omega)
      ⟨hMr, hMc, hMl, hMs, hdone, by intro j' h; omega⟩ ?_ ?_
    · intro j M' hj ⟨hr, hc, hl, hs, hrows, hrow⟩
      have hwf : M'.WF := by
        show M'.nrow * M'.ncol ≤ M'.data.cells.length
        rw [hr, hc, hl]; exact hT
      rw [Matrix.get_eq_ll S hS (by rw [hSr]; exact hi) (by rw [hSc]; exact hj), Res.ret_bind]
      obtain ⟨M'', hset, hr', hc', hl', hs', hval⟩ := Matrix.set_spec_wf M' hwf
        (by rw [hr]; exact hi) (by rw [hc]; exact hj) (S.val i j)
      refine ⟨M'', hset, by rw [hr', hr], by rw [hc', hc], by rw [hl', hl], by rw [hs', hs],
        ?_, ?_⟩
      · intro i' j' hi' hj'
        rw [hval i' j' (by rw [hc]; exact hj'), if_neg (by omega)]
        exact hrows i' j' hi' hj'
      · intro j' hj'
        rw [hval i j' (by rw [hc]; omega)]
        by_cases h : j' = j
        · subst h; simp
        · rw [if_neg (by simp [h])]
          exact hrow j' (by omega)
    · intro j M' hj ⟨hr, hc, hl, hs, hrows, hrow⟩
      refine ⟨hr, hc, hl, hs, ?_⟩
      intro i' j' hi' hj'
      by_cases h : i' = i
      · subst h; exact hrow j' (by omega)
      · exact hrows i' j' (by omega) hj'
  · intro i M hi ⟨hr, hc, hl, hs, hdone⟩
    refine ⟨hr, hc, hl, hs, ?_⟩
    intro i' j' hi' hj'
    exact hdone i' j' (by omega) hj'

/-- The copy constructor returns a matrix of the shape of its source whose cells read as
those of the source. -/
theorem copy_ctor_spec [Zero α] (raw : Nat → α) (S : Matrix α) (hS : S.WF) (fuel : Nat)
    (hR : S.nrow < fuel) (hC : S.ncol < fuel) :
    ∃ M, Matrix.copy_ctor fuel raw S = Res.ret M ∧ M.nrow = S.nrow ∧ M.ncol = S.ncol ∧
      M.WF ∧ ∀ i j, i < S.nrow → j < S.ncol → M.val i j = S.val i j := by
  obtain ⟨h1, h2, h3, _⟩ := Matrix.reset_buffer_spec raw
    ({ nrow := S.nrow, ncol := S.ncol, data := Vec.empty } : Matrix α) S.nrow S.ncol
  obtain ⟨M, hM, hr, hc, hl, _, hval⟩ := copy_loops_spec S _ S.nrow S.ncol hS rfl rfl h1 h2 h3
    fuel hR hC
  refine ⟨M, hM, hr, hc, ?_, hval⟩
  show M.nrow * M.ncol ≤ M.data.cells.length
  rw [hr, hc, hl]; exact h3

/-- The assignment from a different object returns a matrix of the shape of its source whose
cells read as those of the source. -/
theorem operator_assign_spec [Zero α] (raw : Nat → α) (T S : Matrix α) (hT : T.WF) (hS : S.WF)
    (fuel : Nat) (hR : S.nrow < fuel) (hC : S.ncol < fuel) :
    ∃ M, Matrix.operator_assign fuel raw T S false = Res.ret M ∧ M.nrow = S.nrow ∧
      M.ncol = S.ncol ∧ M.WF ∧ ∀ i j, i < S.nrow → j < S.ncol → M.val i j = S.val i j := by
  unfold Matrix.operator_assign
  simp only [Bool.false_eq_true, if_false]
  by_cases hsh : T.nrow ≠ S.nrow ∨ T.ncol ≠ S.ncol
  · rw [if_pos hsh]
    obtain ⟨h1, h2, h3, _⟩ := Matrix.reset_buffer_spec raw T S.nrow S.ncol
    obtain ⟨M, hM, hr, hc, hl, _, hval⟩ := copy_loops_spec S _ S.nrow S.ncol hS rfl rfl h1 h2
      h3 fuel hR hC
    refine ⟨M, hM, hr, hc, ?_, hval⟩
    show M.nrow * M.ncol ≤ M.data.cells.length
    rw [hr, hc, hl]; exact h3
  · rw [if_neg hsh]
    have hrow : T.nrow = S.nrow := by
      by_contra h; exact hsh (Or.inl h)
    have hcol : T.ncol = S.ncol := by
      by_contra h; exact hsh (Or.inr h)
    have h3 : S.nrow * S.ncol ≤ T.data.cells.length := by
      have := hT
      simp only [Matrix.WF, hrow, hcol] at this
      exact this
    rw [hrow, hcol]
    obtain ⟨M, hM, hr, hc, hl, _, hval⟩ := copy_loops_spec S T S.nrow S.ncol hS rfl rfl hrow
      hcol h3 fuel hR hC
    refine ⟨M, hM, hr, hc, ?_, hval⟩
    show M.nrow * M.ncol ≤ M.data.cells.length
    rw [hr, hc, hl]; exact h3

end LittleLaGi

/-! ## Allocator accounting -/

theorem countP_eraseIdx_add {α : Type} (p : α → Bool) :
    ∀ (l : List α) (k : Nat) (x : α), l[k]? = some x →
      (l.eraseIdx k).countP p + (if p x then 1 else 0) = l.countP p := by
  intro l
  induction l with
  | nil => intro k x h; simp at h
  | cons y ys ih =>
    intro k x h
    cases k with
    | zero =>
      simp at h
      subst h
      simp [List.countP_cons]
    | succ k =>
      simp at h
      have := ih k x h
      simp only [List.eraseIdx_cons_succ, List.countP_cons]
      omega

namespace LittleLaGi

variable {α : Type}

/-- The counted constructor builds the matrix of the plain constructor. -/
theorem Matrix.create_counted_snd (c : Counters) (raw : Nat → α) (R Cn : Nat) :
    (Matrix.create_counted c raw R Cn).2 = Matrix.create raw R Cn := by
  by_cases h : R * Cn > (Vec.empty : Vec α).capacity
  · simp only [Matrix.create_counted, Vec.reserve_counted, Matrix.create, Matrix.reset_buffer,
      if_pos h]
  · simp only [Matrix.create_counted, Vec.reserve_counted, Matrix.create, Matrix.reset_buffer,
      Vec.reserve, if_neg h]

/-- The counters after the counted constructor: one allocation of `R*Cn` elements when the
shape has cells, nothing otherwise. -/
theorem Matrix.create_counted_fst (c : Counters) (raw : Nat → α) (R Cn : Nat) :
    (Matrix.create_counted c raw R Cn).1 = if 0 < R * Cn then c.allocate (R * Cn) else c := by
  simp only [Matrix.create_counted, Vec.reserve_counted, Vec.capacity, Vec.empty,
    List.length_nil, gt_iff_lt, lt_self_iff_false, if_false]
  split_ifs <;> rfl

theorem Matrix.create_capacity (raw : Nat → α) (R Cn : Nat) :
    (Matrix.create raw R Cn).data.capacity = R * Cn :=
  (Matrix.create_shaped_ll raw R Cn).2.2

/-- The number of matrices alive that hold storage. -/
theorem World.step_inv (raw : Nat → α) (w : World α) (e : Event)
    (h : w.counters.allocated = w.counters.deallocated
      + w.alive.countP (fun m => decide (0 < m.data.capacity))) :
    (w.step raw e).counters.allocated = (w.step raw e).counters.deallocated
      + (w.step raw e).alive.countP (fun m => decide (0 < m.data.capacity)) := by
  cases e with
  | construct R Cn =>
    simp only [World.step, Matrix.create_counted_snd, Matrix.create_counted_fst,
      List.countP_cons, Matrix.create_capacity]
    by_cases hp : 0 < R * Cn
    · simp only [hp, if_true, decide_True, Counters.allocate]
      omega
    · simp only [hp, if_false, decide_False]
      simpa using h
  | destroy k =>
    simp only [World.step]
    cases hk : w.alive[k]? with
    | none => simpa using h
    | some m =>
      have hc := countP_eraseIdx_add (fun m : Matrix α => decide (0 < m.data.capacity))
        w.alive k m hk
      simp only [Matrix.destroy, Vec.destroy]
      by_cases hp : 0 < m.data.capacity
      · simp only [hp, decide_True, if_true] at hc
        simp only [gt_iff_lt, hp, if_true, Counters.deallocate]
        omega
      · simp only [hp, decide_False] at hc
        simp only [gt_iff_lt, hp, if_false]
        simp at hc
        omega

theorem World.run_inv (raw : Nat → α) (es : List Event) :
    (World.run raw es : World α).counters.allocated
      = (World.run raw es : World α).counters.deallocated
        + (World.run raw es : World α).alive.countP (fun m => decide (0 < m.data.capacity)) := by
  unfold World.run
  have key : ∀ (es : List Event) (w : World α),
      w.counters.allocated = w.counters.deallocated
        + w.alive.countP (fun m => decide (0 < m.data.capacity)) →
      (es.foldl (World.step raw) w).counters.allocated
        = (es.foldl (World.step raw) w).counters.deallocated
          + (es.foldl (World.step raw) w).alive.countP
              (fun m => decide (0 < m.data.capacity)) := by
    intro es
    induction es with
    | nil => intro w h; exact h
    | cons e es ih => intro w h; exact ih _ (World.step_inv raw w e h)
  exact key es _ rfl

end LittleLaGi

/-! ## Symbolic execution of the tiled product -/

namespace Cycatz

theorem Term.base_foldl (f : Nat → Term) (l : List Nat) :
    ∀ c : Term, (l.foldl (fun s k => s + f k) c).base = c.base := by
  induction l with
  | nil => intro c; rfl
  | cons k ks ih =>
    intro c
    rw [List.foldl_cons, ih]
    rfl

theorem Term.summands_foldl (f : Nat → Term) (l : List Nat) :
    ∀ c : Term, (l.foldl (fun s k => s + f k) c).summands = c.summands ++ l.map f := by
  induction l with
  | nil => intro c; simp
  | cons k ks ih =>
    intro c
    rw [List.foldl_cons, ih]
    show (c.summands ++ [f k]) ++ List.map f ks = c.summands ++ List.map f (k :: ks)
    simp

theorem idx_div_mod {K i k : Nat} (hk : k < K) : (i * K + k) / K = i ∧ (i * K + k) % K = k := by
  have hK : 0 < K := by omega
  constructor
  · rw [Nat.add_comm, Nat.add_mul_div_right _ _ hK, Nat.div_eq_of_lt hk, Nat.zero_add]
  · rw [Nat.add_comm, Nat.add_mul_mod_self_right, Nat.mod_eq_of_lt hk]

theorem symA_wf (R K : Nat) : (symA R K).WF := by
  simp [Matrix.WF, symA]

theorem symB_wf (K Cn : Nat) : (symB K Cn).WF := by
  simp [Matrix.WF, symB]

theorem symA_val {R K i k : Nat} (hi : i < R) (hk : k < K) : (symA R K).val i k = Term.a i k := by
  have hlt : i * K + k < R * K := idx_lt hi hk
  obtain ⟨h1, h2⟩ := idx_div_mod (i := i) hk
  simp [Matrix.val, symA, List.getD_eq_getElem?_getD, List.getElem?_range hlt, h1, h2]

theorem symB_val {K Cn k j : Nat} (hk : k < K) (hj : j < Cn) : (symB K Cn).val k j = Term.b k j := by
  have hlt : k * Cn + j < K * Cn := idx_lt hk hj
  obtain ⟨h1, h2⟩ := idx_div_mod (i := k) hj
  simp [Matrix.val, symB, List.getD_eq_getElem?_getD, List.getElem?_range hlt, h1, h2]

/-- The symbolic sum of cell `(i,j)`: it starts at `0` and its summands are the products
`a i k * b k j` for `k = 0, ..., K-1`, in this order. -/
theorem dot_sym {R K Cn i j : Nat} (hi : i < R) (hj : j < Cn) :
    (dot (symA R K) (symB K Cn) i j K).base = Term.zero ∧
    (dot (symA R K) (symB K Cn) i j K).summands
      = (List.range K).map (fun k => Term.mul (Term.a i k) (Term.b k j)) := by
  unfold dot
  constructor
  · rw [Term.base_foldl (fun k => (symA R K).val i k * (symB K Cn).val k j)]
    rfl
  · rw [Term.summands_foldl (fun k => (symA R K).val i k * (symB K Cn).val k j)]
    show [] ++ _ = _
    rw [List.nil_append]
    apply List.map_congr_left
    intro k hk
    rw [List.mem_range] at hk
    rw [symA_val hi hk, symB_val hk hj]
    rfl

end Cycatz

/-! ## Rendering and clamping -/

theorem head?_append_some {α : Type} {l l' : List α} {a : α} (h : l.head? = some a) :
    (l ++ l').head? = some a := by
  cases l with
  | nil => simp at h
  | cons x xs => simpa using h

namespace Cycatz

variable {α : Type}

/-- Without rows `to_string` writes the opening bracket and nothing else. -/
theorem to_string_no_rows (fmt : α → String) (fuel : Nat) (A : Matrix α) (hR : A.m_nrow = 0) :
    A.to_string fmt (fuel + 1) = Res.ret "[" := by
  unfold Matrix.to_string
  exact forLoop_skip _ _ _ fuel 0 _ (by simp [hR])

/-- With at least one row the text of `to_string` starts with `[`, ends with `]` and, when
no element is written with a newline in it, holds `R - 1` newlines. -/
theorem to_string_rows [Zero α] (fmt : α → String) (A : Matrix α) (hA : A.WF)
    (hR : 1 ≤ A.m_nrow) (hfmt : ∀ x, List.count (Char.ofNat 10) (fmt x).data = 0)
    (fuel : Nat) (hfR : A.m_nrow < fuel) (hfC : A.m_ncol < fuel) :
    ∃ s, A.to_string fmt fuel = Res.ret s ∧ s.data.head? = some '[' ∧
      s.data.getLast? = some ']' ∧ List.count (Char.ofNat 10) s.data = A.m_nrow - 1 := by
  unfold Matrix.to_string
  simp only []
  refine forLoop_lt_spec _ 1 _
    (fun i ss => i ≤ A.m_nrow ∧ ss.data.head? = some '[' ∧
      List.count (Char.ofNat 10) ss.data = min i (A.m_nrow - 1) ∧
      (i = A.m_nrow → ss.data.getLast? = some ']'))
    _ fuel 0 _ (le_refl 1) (by omega) ⟨by omega, by decide, by simp, by omega⟩ ?_ ?_
  · intro i ss hi ⟨_, hhead, hcount, _⟩
    refine bind_spec _ _
      (fun ss' => ss'.data.head? = some '[' ∧
        List.count (Char.ofNat 10) ss'.data = min i (A.m_nrow - 1)) _ ?_ ?_
    · refine forLoop_lt_spec _ 1 _
        (fun _ ss' => ss'.data.head? = some '[' ∧
          List.count (Char.ofNat 10) ss'.data = min i (A.m_nrow - 1))
        _ fuel 0 ss (le_refl 1) (by omega) ⟨hhead, hcount⟩ ?_ ?_
      · intro j ss' hj ⟨hh, hc⟩
        rw [Matrix.get_eq A hA hi hj, Res.ret_bind]
        refine ⟨_, rfl, ?_, ?_⟩
        · simp only [String.data_append, List.append_assoc]
          exact head?_append_some hh
        · simp only [String.data_append, List.count_append, hc, hfmt]
          have h1 : List.count (Char.ofNat 10) (" " : String).data = 0 := by decide
          have h2 : List.count (Char.ofNat 10) [' '] = 0 := by decide
          omega
      · intro j ss' _ h
        exact h
    · intro ss' ⟨hh, hc⟩
      by_cases hlast : i = A.m_nrow - 1
      · rw [if_pos hlast]
        refine ⟨_, rfl, by omega, ?_, ?_, ?_⟩
        · rw [String.data_append]
          exact head?_append_some hh
        · rw [String.data_append, List.count_append, hc]
          have : List.count (Char.ofNat 10) (" ]" : String).data = 0 := by decide
          omega
        · intro _
          have hd : (" ]" : String).data = [' ', ']'] := by decide
          rw [String.data_append, hd]
          simp
      · rw [if_neg hlast]
        refine ⟨_, rfl, by omega, ?_, ?_, ?_⟩
        · rw [String.data_append]
          exact head?_append_some hh
        · rw [String.data_append, List.count_append, hc]
          have : List.count (Char.ofNat 10) ("\n" : String).data = 1 := by decide
          omega
        · intro h
          omega
  · intro i ss hi ⟨hle, hh, hc, hlast⟩
    have hiR : i = A.m_nrow := by omega
    refine ⟨hh, hlast hiR, ?_⟩
    rw [hc, hiR]
    omega

end Cycatz

namespace Abt8601

/-- On comparable values with `lo ≤ hi` the result of `clamp` lies between `lo` and `hi`. -/
theorem clamp_bounds {β : Type} [LinearOrder β] (lo hi x : β) (h : lo ≤ hi) :
    ∃ y, clamp ltNaN (some x) (some lo) (some hi) = some y ∧ lo ≤ y ∧ y ≤ hi := by
  unfold clamp
  simp only [ltNaN, decide_eq_true_eq]
  by_cases h1 : x < lo
  · exact ⟨lo, by rw [if_pos h1], le_refl lo, h⟩
  · by_cases h2 : hi < x
    · exact ⟨hi, by rw [if_neg h1, if_pos h2], h, le_refl hi⟩
    · exact ⟨x, by rw [if_neg h1, if_neg h2], not_lt.mp h1, not_lt.mp h2⟩

end Abt8601

/-! ## The claims -/

/-- C3: the LittleLaGi `multiply_tile` adds its products to whatever the storage reserved by
`Matrix(nrow, ncol)` held: with a raw block holding `5`, `[[1]]` times `[[1]]` comes out as
`[[6]]`, while `multiply_naive` gives `[[1]]`. In general (elements in a commutative ring,
`tsize ≥ 1`) every cell of the tiled result is the raw content of its storage cell plus the
cell of `multiply_naive`. -/
theorem C3_tile_adds_to_raw_storage :
    LittleLaGi.multiply_tile 2 (fun _ => (5 : Int)) ⟨1, 1, ⟨0, [1]⟩⟩ ⟨1, 1, ⟨0, [1]⟩⟩ 1
        = Res.ret ⟨1, 1, ⟨0, [6]⟩⟩
    ∧ LittleLaGi.multiply_naive 2 (fun _ => (5 : Int)) ⟨1, 1, ⟨0, [1]⟩⟩ ⟨1, 1, ⟨0, [1]⟩⟩
        = Res.ret ⟨1, 1, ⟨0, [1]⟩⟩
    ∧ (LittleLaGi.Matrix.create (fun _ => (5 : Int)) 1 1).get 0 0 = Res.ret 5
    ∧ ∀ (α : Type) [CommRing α] (raw : Nat → α) (m1 m2 : LittleLaGi.Matrix α) (tsize fuel : Nat),
        m1.WF → m2.WF → m1.ncol = m2.nrow → 1 ≤ tsize →
        m1.nrow < fuel → m1.ncol < fuel → m2.ncol < fuel →
        ∃ m n, LittleLaGi.multiply_tile fuel raw m1 m2 tsize = Res.ret m ∧
          LittleLaGi.multiply_naive fuel raw m1 m2 = Res.ret n ∧
          ∀ i j, i < m1.nrow → j < m2.ncol →
            m.val i j = raw (i * m2.ncol + j) + n.val i j := by
  refine ⟨by decide, by decide, by decide, ?_⟩
  intro α _ raw m1 m2 tsize fuel h1 h2 h12 ht hR hK hC
  obtain ⟨m, hm, _, hmv⟩ := LittleLaGi.multiply_tile_spec_ll raw m1 m2 h1 h2 h12 tsize ht fuel
    hR hK hC
  obtain ⟨n, hn, _, hnv⟩ := LittleLaGi.multiply_naive_spec_ll raw m1 m2 h1 h2 h12 fuel hR hK hC
  refine ⟨m, n, hm, hn, ?_⟩
  intro i j hi hj
  rw [hmv i j hi hj, hnv i j hi hj, LittleLaGi.accum_eq_add_dot]

/-- C4 as stated fails: with tile size 0, `[[1]]` times `[[1]]` never returns, in either
variant. -/
theorem C4_tile_zero_counterexample :
    (¬ ∃ fuel C, Cycatz.multiply_tile fuel (⟨1, 1, [1]⟩ : Cycatz.Matrix Int) ⟨1, 1, [1]⟩ 0
        = Res.ret C)
    ∧ (¬ ∃ fuel m, LittleLaGi.multiply_tile fuel (fun _ => (0 : Int)) ⟨1, 1, ⟨0, [1]⟩⟩
        ⟨1, 1, ⟨0, [1]⟩⟩ 0 = Res.ret m) := by
  constructor
  · rintro ⟨fuel, C, h⟩
    rw [Cycatz.multiply_tile_zero_stuck _ _ (by decide) (by decide) fuel] at h
    exact Res.noConfusion h
  · rintro ⟨fuel, m, h⟩
    rw [LittleLaGi.multiply_tile_zero_stuck_ll _ _ _ (by decide) fuel] at h
    exact Res.noConfusion h

/-- C4, amended: with tile size 0 and `A.ncol = B.nrow`, `multiply_tile` returns exactly when
`A` has no rows, and then it returns the empty matrix that `multiply_naive` returns; when `A`
has a row the call never returns, whatever the fuel (both variants). -/
theorem C4_tile_zero {α : Type} [Zero α] [Add α] [Mul α]
    (A B : Cycatz.Matrix α) (m1 m2 : LittleLaGi.Matrix α) (raw : Nat → α)
    (hAB : A.ncol = B.nrow) (h12 : m1.ncol = m2.nrow) :
    (A.nrow = 0 → ∀ fuel, 1 ≤ fuel →
      Cycatz.multiply_tile fuel A B 0 = Res.ret (Cycatz.Matrix.create 0 B.ncol) ∧
      Cycatz.multiply_naive fuel A B = Res.ret (Cycatz.Matrix.create 0 B.ncol))
    ∧ (0 < A.nrow → ∀ fuel, Cycatz.multiply_tile fuel A B 0 = Res.timeout)
    ∧ (m1.nrow = 0 → ∀ fuel, 1 ≤ fuel →
      LittleLaGi.multiply_tile fuel raw m1 m2 0 = Res.ret (LittleLaGi.Matrix.create raw 0 m2.ncol) ∧
      LittleLaGi.multiply_naive fuel raw m1 m2
        = Res.ret (LittleLaGi.Matrix.create raw 0 m2.ncol))
    ∧ (0 < m1.nrow → ∀ fuel, LittleLaGi.multiply_tile fuel raw m1 m2 0 = Res.timeout) := by
  refine ⟨?_, ?_, ?_, ?_⟩
  · intro hR fuel hf
    obtain ⟨n, rfl⟩ : ∃ n, fuel = n + 1 := ⟨fuel - 1, by omega⟩
    exact Cycatz.multiply_empty A B hAB hR 0 n
  · intro hR fuel
    exact Cycatz.multiply_tile_zero_stuck A B hAB hR fuel
  · intro hR fuel hf
    obtain ⟨n, rfl⟩ : ∃ n, fuel = n + 1 := ⟨fuel - 1, by omega⟩
    exact LittleLaGi.multiply_empty_ll raw m1 m2 h12 hR 0 n
  · intro hR fuel
    exact LittleLaGi.multiply_tile_zero_stuck_ll raw m1 m2 hR fuel

/-- C4 amended, at a 0×2 by 2×3 product (returns, empty) and a 1×2 by 2×1 product (never
returns). -/
theorem C4_tile_zero_witness :
    Cycatz.multiply_tile 1 (⟨0, 2, []⟩ : Cycatz.Matrix Int) ⟨2, 3, [1, 2, 3, 4, 5, 6]⟩ 0
        = Res.ret ⟨0, 3, []⟩
    ∧ (∀ fuel, LittleLaGi.multiply_tile fuel (fun _ => (0 : Int)) ⟨1, 2, ⟨0, [1, 2]⟩⟩
        ⟨2, 1, ⟨0, [3, 4]⟩⟩ 0 = Res.timeout) :=
  ⟨((C4_tile_zero (⟨0, 2, []⟩ : Cycatz.Matrix Int) ⟨2, 3, [1, 2, 3, 4, 5, 6]⟩
      (⟨1, 2, ⟨0, [1, 2]⟩⟩ : LittleLaGi.Matrix Int) ⟨2, 1, ⟨0, [3, 4]⟩⟩ (fun _ => 0)
      (by decide) (by decide)).1 (by decide) 1 (by decide)).1,
   (C4_tile_zero (⟨0, 2, []⟩ : Cycatz.Matrix Int) ⟨2, 3, [1, 2, 3, 4, 5, 6]⟩
      (⟨1, 2, ⟨0, [1, 2]⟩⟩ : LittleLaGi.Matrix Int) ⟨2, 1, ⟨0, [3, 4]⟩⟩ (fun _ => 0)
      (by decide) (by decide)).2.2.2 (by decide)⟩

/-- C5: in the Cycatz variant each of `multiply_naive`, `multiply_tile` and `multiply_mkl`
ends in the `invalid_argument` exception if and only if `A.ncol ≠ B.nrow`; the outcome then
carries no matrix and is reached before any loop (it is the same with no fuel at all, and
whatever the vendor routine would compute). A 2×3 matrix against a 2×3 matrix is rejected by
all three. -/
theorem C5_cycatz_shape_mismatch {α : Type} [Zero α] [Add α] [Mul α]
    (dgemm : Nat → Nat → Nat → List α → Nat → List α → Nat → List α → Nat → List α)
    (A B : Cycatz.Matrix α) (t fuel : Nat) :
    (Cycatz.multiply_naive fuel A B = Res.throw Exn.invalid_argument ↔ A.ncol ≠ B.nrow)
    ∧ (Cycatz.multiply_tile fuel A B t = Res.throw Exn.invalid_argument ↔ A.ncol ≠ B.nrow)
    ∧ (Cycatz.multiply_mkl dgemm A B = Res.throw Exn.invalid_argument ↔ A.ncol ≠ B.nrow)
    ∧ Cycatz.multiply_naive 0 (⟨2, 3, [1, 2, 3, 4, 5, 6]⟩ : Cycatz.Matrix Int)
        ⟨2, 3, [1, 2, 3, 4, 5, 6]⟩ = Res.throw Exn.invalid_argument
    ∧ Cycatz.multiply_tile 0 (⟨2, 3, [1, 2, 3, 4, 5, 6]⟩ : Cycatz.Matrix Int)
        ⟨2, 3, [1, 2, 3, 4, 5, 6]⟩ 2 = Res.throw Exn.invalid_argument
    ∧ Cycatz.multiply_mkl (fun _ _ _ _ _ _ _ c _ => c)
        (⟨2, 3, [1, 2, 3, 4, 5, 6]⟩ : Cycatz.Matrix Int) ⟨2, 3, [1, 2, 3, 4, 5, 6]⟩
        = Res.throw Exn.invalid_argument :=
  ⟨Cycatz.multiply_naive_throw_iff fuel A B, Cycatz.multiply_tile_throw_iff fuel A B t,
    Cycatz.multiply_mkl_throw_iff dgemm A B, by decide, by decide, by decide⟩

/-- C6: on a 2×3 matrix against a 2×3 matrix the LittleLaGi `multiply_naive` throws, but
`multiply_tile` throws nothing for any fuel, raw storage and tile size (it builds the result
and runs its loops, reading outside the storage of `m2`), and `multiply_mkl` returns a
matrix whatever the vendor routine does. -/
theorem C6_littlelagi_tile_mkl_unchecked :
    LittleLaGi.multiply_naive 3 (fun _ => (0 : Int)) ⟨2, 3, ⟨0, [1, 2, 3, 4, 5, 6]⟩⟩
        ⟨2, 3, ⟨0, [1, 2, 3, 4, 5, 6]⟩⟩ = Res.throw Exn.runtime_error
    ∧ (∀ (fuel : Nat) (raw : Nat → Int) (tsize : Nat) (e : Exn),
        LittleLaGi.multiply_tile fuel raw ⟨2, 3, ⟨0, [1, 2, 3, 4, 5, 6]⟩⟩
          ⟨2, 3, ⟨0, [1, 2, 3, 4, 5, 6]⟩⟩ tsize ≠ Res.throw e)
    ∧ LittleLaGi.multiply_tile 3 (fun _ => (0 : Int)) ⟨2, 3, ⟨0, [1, 2, 3, 4, 5, 6]⟩⟩
        ⟨2, 3, ⟨0, [1, 2, 3, 4, 5, 6]⟩⟩ 2 = Res.undef
    ∧ LittleLaGi.multiply_tile 3 (fun _ => (0 : Int)) ⟨1, 1, ⟨0, [2]⟩⟩
        ⟨2, 1, ⟨0, [3, 4]⟩⟩ 1 = Res.ret ⟨1, 1, ⟨0, [6]⟩⟩
    ∧ (∀ (dgemm : Nat → Nat → Nat → List Int → Nat → List Int → Nat → List Int → Nat → List Int)
        (raw : Nat → Int),
        ∃ m, LittleLaGi.multiply_mkl dgemm raw ⟨2, 3, ⟨0, [1, 2, 3, 4, 5, 6]⟩⟩
          ⟨2, 3, ⟨0, [1, 2, 3, 4, 5, 6]⟩⟩ = Res.ret m) := by
  refine ⟨by decide, ?_, by decide, by decide, ?_⟩
  · intro fuel raw tsize e
    exact LittleLaGi.multiply_tile_ne_throw fuel raw _ _ tsize e
  · intro dgemm raw
    exact ⟨_, rfl⟩

/-- C7: for an `n×n` matrix `A` and an `n×n` matrix `I` reading `1` on the diagonal and `0`
elsewhere, `multiply_naive(A, I)` and, for every `t ≥ 1`, `multiply_tile(A, I, t)` return
`A` itself: same shape, same cells (elements in a commutative ring). -/
theorem C7_identity_right {α : Type} [CommRing α] (A I : Cycatz.Matrix α) (n t fuel : Nat)
    (hA : A.WF) (hI : I.WF) (hAr : A.nrow = n) (hAc : A.ncol = n) (hIr : I.nrow = n)
    (hIc : I.ncol = n)
    (hdiag : ∀ i j, i < n → j < n → I.get i j = Res.ret (if i = j then 1 else 0))
    (ht : 1 ≤ t) (hfuel : n < fuel) :
    Cycatz.multiply_naive fuel A I = Res.ret A ∧ Cycatz.multiply_tile fuel A I t = Res.ret A := by
  have hAI : A.ncol = I.nrow := by rw [hAc, hIr]
  have hval : ∀ k l, k < n → l < n → I.val k l = if k = l then 1 else 0 := by
    intro k l hk hl
    have h := hdiag k l hk hl
    rw [Cycatz.Matrix.get_eq I hI (by rw [← hIr] at hk; exact hk)
      (by rw [← hIc] at hl; exact hl)] at h
    exact Cycatz.Matrix.ret_inj h
  have hAsh : A.Shaped A.nrow I.ncol := ⟨rfl, by rw [hIc]; exact hAc, by
    rw [hA, hIc]; simp only [Cycatz.Matrix.nrow, Cycatz.Matrix.ncol] at *; rw [hAc]⟩
  have hdot : ∀ i j, i < A.nrow → j < I.ncol → Cycatz.dot A I i j A.ncol = A.val i j := by
    intro i j _ hj
    rw [hAc, Cycatz.dot_identity A I n i j (by omega) hval n (le_refl n),
      if_pos (by omega)]
  obtain ⟨C, hr, hsh, hc⟩ := Cycatz.multiply_naive_spec A I hA hI hAI fuel
    (by omega) (by omega) (by omega)
  obtain ⟨D, hr', hsh', hd⟩ := Cycatz.multiply_tile_spec A I hA hI hAI t ht fuel
    (by omega) (by omega) (by omega)
  have hCA : C = A := Cycatz.Matrix.eq_of_val hsh hAsh (by
    intro i j hi hj; rw [hc i j hi hj, hdot i j hi hj])
  have hDA : D = A := Cycatz.Matrix.eq_of_val hsh' hAsh (by
    intro i j hi hj; rw [hd i j hi hj, hdot i j hi hj])
  exact ⟨by rw [hr, hCA], by rw [hr', hDA]⟩

/-- C7, at a 2×2 matrix with the 2×2 identity and tile width 3. -/
theorem C7_identity_right_witness :
    Cycatz.multiply_naive 3 (⟨2, 2, [4, 5, 6, 7]⟩ : Cycatz.Matrix Int) ⟨2, 2, [1, 0, 0, 1]⟩
        = Res.ret ⟨2, 2, [4, 5, 6, 7]⟩
    ∧ Cycatz.multiply_tile 3 (⟨2, 2, [4, 5, 6, 7]⟩ : Cycatz.Matrix Int) ⟨2, 2, [1, 0, 0, 1]⟩ 3
        = Res.ret ⟨2, 2, [4, 5, 6, 7]⟩ :=
  C7_identity_right (⟨2, 2, [4, 5, 6, 7]⟩ : Cycatz.Matrix Int) ⟨2, 2, [1, 0, 0, 1]⟩ 2 3 3
    (by decide) (by decide) (by decide) (by decide) (by decide) (by decide)
    (by
      intro i j hi hj
      have hi' : i = 0 ∨ i = 1 := by omega
      have hj' : j = 0 ∨ j = 1 := by omega
      rcases hi' with rfl | rfl <;> rcases hj' with rfl | rfl <;> decide)
    (by decide) (by decide)

/-- C8 as stated fails on doubles: the 1×1 matrix holding NaN has its own shape and its own
elements, yet `X == X` returns `false`, because `NaN != NaN` is true. -/
theorem C8_cycatz_operator_eq_counterexample :
    Cycatz.Matrix.operator_eq Cycatz.neNaN 2 (⟨1, 1, [none]⟩ : Cycatz.Matrix (Option Int))
        ⟨1, 1, [none]⟩ = Res.ret false
    ∧ ¬ (Cycatz.Matrix.operator_eq Cycatz.neNaN 2 (⟨1, 1, [none]⟩ : Cycatz.Matrix (Option Int))
          ⟨1, 1, [none]⟩ = Res.ret true ↔
        (⟨1, 1, [none]⟩ : Cycatz.Matrix (Option Int)).nrow
            = (⟨1, 1, [none]⟩ : Cycatz.Matrix (Option Int)).nrow ∧
          (⟨1, 1, [none]⟩ : Cycatz.Matrix (Option Int)).ncol
            = (⟨1, 1, [none]⟩ : Cycatz.Matrix (Option Int)).ncol ∧
          ∀ i j, i < (⟨1, 1, [none]⟩ : Cycatz.Matrix (Option Int)).nrow →
            j < (⟨1, 1, [none]⟩ : Cycatz.Matrix (Option Int)).ncol →
            (⟨1, 1, [none]⟩ : Cycatz.Matrix (Option Int)).get i j
              = (⟨1, 1, [none]⟩ : Cycatz.Matrix (Option Int)).get i j) := by
  have hev : Cycatz.Matrix.operator_eq Cycatz.neNaN 2
      (⟨1, 1, [none]⟩ : Cycatz.Matrix (Option Int)) ⟨1, 1, [none]⟩ = Res.ret false := by decide
  refine ⟨hev, ?_⟩
  intro h
  have htrue := h.mpr ⟨rfl, rfl, fun _ _ _ _ => rfl⟩
  rw [hev] at htrue
  exact absurd (Cycatz.Matrix.ret_inj htrue) (by decide)

/-- C8, amended: in the Cycatz variant `X == Y` returns a boolean, and it is `true` if and
only if `X` and `Y` have the same row count and column count and at no in-range `(i,j)` the
comparison `X(i,j) != Y(i,j)` of the elements is true; when the shapes differ it is `false`
at once, before any loop or read (so for any fuel and any buffers). Where `!=` is
disequality of values this is: `true` if and only if the shapes agree and `X(i,j)` equals
`Y(i,j)` at every in-range `(i,j)`. -/
theorem C8_cycatz_operator_eq {α : Type} [Zero α] (ne : α → α → Bool) (X Y : Cycatz.Matrix α)
    (fuel : Nat) (hX : X.WF) (hY : Y.WF) (hfuel : X.nrow < fuel ∧ X.ncol < fuel) :
    (∃ b, X.operator_eq ne fuel Y = Res.ret b)
    ∧ (X.operator_eq ne fuel Y = Res.ret true ↔
        X.nrow = Y.nrow ∧ X.ncol = Y.ncol ∧
          ∀ i j, i < X.nrow → j < X.ncol →
            ∃ a b, X.get i j = Res.ret a ∧ Y.get i j = Res.ret b ∧ ne a b = false)
    ∧ (∀ (X' Y' : Cycatz.Matrix α) (fuel' : Nat), X'.nrow ≠ Y'.nrow ∨ X'.ncol ≠ Y'.ncol →
        X'.operator_eq ne fuel' Y' = Res.ret false)
    ∧ ((∀ a b, ne a b = false ↔ a = b) →
        (X.operator_eq ne fuel Y = Res.ret true ↔
          X.nrow = Y.nrow ∧ X.ncol = Y.ncol ∧
            ∀ i j, i < X.nrow → j < X.ncol → X.get i j = Y.get i j)) := by
  have hshape : ∀ (X' Y' : Cycatz.Matrix α) (fuel' : Nat),
      X'.nrow ≠ Y'.nrow ∨ X'.ncol ≠ Y'.ncol → X'.operator_eq ne fuel' Y' = Res.ret false := by
    intro X' Y' fuel' h
    apply Cycatz.operator_eq_shape
    intro hs
    have h1 : X'.m_nrow = Y'.m_nrow := congrArg Prod.fst hs
    have h2 : X'.m_ncol = Y'.m_ncol := congrArg Prod.snd hs
    rcases h with h | h
    · exact h h1
    · exact h h2
  simp only [Cycatz.Matrix.nrow, Cycatz.Matrix.ncol] at *
  by_cases hs : X.m_nrow = Y.m_nrow ∧ X.m_ncol = Y.m_ncol
  · obtain ⟨hr, hc⟩ := hs
    have hsize : X.size = Y.size := by simp [Cycatz.Matrix.size, hr, hc]
    -- what the reads give at an in-range pair
    have hcell : ∀ i j, i < X.m_nrow → j < X.m_ncol →
        ((∃ a b, X.get i j = Res.ret a ∧ Y.get i j = Res.ret b ∧ ne a b = false) ↔
          ne (X.val i j) (Y.val i j) = false) := by
      intro i j hi hj
      rw [Cycatz.Matrix.get_eq X hX hi hj, Cycatz.Matrix.get_eq Y hY (by omega) (by omega)]
      constructor
      · rintro ⟨a, b, ha, hb, hab⟩
        rw [Cycatz.Matrix.ret_inj ha, Cycatz.Matrix.ret_inj hb]
        exact hab
      · intro h
        exact ⟨_, _, rfl, rfl, h⟩
    have hget : ∀ i j, i < X.m_nrow → j < X.m_ncol →
        (X.get i j = Y.get i j ↔ X.val i j = Y.val i j) := by
      intro i j hi hj
      rw [Cycatz.Matrix.get_eq X hX hi hj, Cycatz.Matrix.get_eq Y hY (by omega) (by omega)]
      exact ⟨Cycatz.Matrix.ret_inj, fun h => by rw [h]⟩
    -- the outcome in terms of the comparison of the cells
    have hiff : X.operator_eq ne fuel Y = Res.ret true ↔
        ∀ i j, i < X.m_nrow → j < X.m_ncol → ne (X.val i j) (Y.val i j) = false := by
      rcases Cycatz.operator_eq_spec ne X Y hX hY hsize fuel hfuel.1 hfuel.2 with
        ⟨h, hall⟩ | ⟨h, i, j, hi, hj, hne⟩
      · exact ⟨fun _ => hall, fun _ => h⟩
      · constructor
        · intro h'
          rw [h] at h'
          exact absurd (Cycatz.Matrix.ret_inj h') (by decide)
        · intro hall
          have := hall i j hi hj
          rw [hne] at this
          exact absurd this (by decide)
    have hret : ∃ b, X.operator_eq ne fuel Y = Res.ret b := by
      rcases Cycatz.operator_eq_spec ne X Y hX hY hsize fuel hfuel.1 hfuel.2 with
        ⟨h, _⟩ | ⟨h, _⟩
      · exact ⟨true, h⟩
      · exact ⟨false, h⟩
    refine ⟨hret, ?_, hshape, ?_⟩
    · rw [hiff]
      constructor
      · intro hall
        exact ⟨hr, hc, fun i j hi hj => (hcell i j hi hj).mpr (hall i j hi hj)⟩
      · rintro ⟨_, _, hall⟩ i j hi hj
        exact (hcell i j hi hj).mp (hall i j hi hj)
    · intro hne
      rw [hiff]
      constructor
      · intro hall
        exact ⟨hr, hc, fun i j hi hj =>
          (hget i j hi hj).mpr ((hne _ _).mp (hall i j hi hj))⟩
      · rintro ⟨_, _, hall⟩ i j hi hj
        exact (hne _ _).mpr ((hget i j hi hj).mp (hall i j hi hj))
  · have hne : X.m_nrow ≠ Y.m_nrow ∨ X.m_ncol ≠ Y.m_ncol := by
      by_contra hcon
      push_neg at hcon
      exact hs hcon
    have h := hshape X Y fuel hne
    have hfalse : ¬ X.operator_eq ne fuel Y = Res.ret true := by
      intro h'
      rw [h] at h'
      exact absurd (Cycatz.Matrix.ret_inj h') (by decide)
    refine ⟨⟨false, h⟩, ?_, hshape, ?_⟩
    · constructor
      · intro h'
        exact absurd h' hfalse
      · rintro ⟨h1, h2, _⟩
        exact absurd ⟨h1, h2⟩ hs
    · intro _
      constructor
      · intro h'
        exact absurd h' hfalse
      · rintro ⟨h1, h2, _⟩
        exact absurd ⟨h1, h2⟩ hs

/-- C8 amended, at two 2×2 matrices of integers that differ in their last cell, compared by
disequality. -/
theorem C8_cycatz_operator_eq_witness :
    (∃ b, Cycatz.Matrix.operator_eq (fun a b : Int => decide (a ≠ b)) 3
        (⟨2, 2, [1, 2, 3, 4]⟩ : Cycatz.Matrix Int) ⟨2, 2, [1, 2, 3, 5]⟩ = Res.ret b)
    ∧ Cycatz.Matrix.operator_eq (fun a b : Int => decide (a ≠ b)) 3
        (⟨2, 2, [1, 2, 3, 4]⟩ : Cycatz.Matrix Int) ⟨2, 2, [1, 2, 3, 5]⟩ = Res.ret false :=
  ⟨(C8_cycatz_operator_eq (fun a b : Int => decide (a ≠ b))
      (⟨2, 2, [1, 2, 3, 4]⟩ : Cycatz.Matrix Int) ⟨2, 2, [1, 2, 3, 5]⟩ 3
      (by decide) (by decide) (by decide)).1, by decide⟩

/-- C9: the LittleLaGi `operator==` never compares shapes: a 1×1 matrix `[[7]]` equals the
1×2 matrix `[[7,8]]`, and a matrix without rows equals every matrix. -/
theorem C9_littlelagi_operator_eq_ignores_shape :
    LittleLaGi.Matrix.operator_eq 2 (⟨1, 1, ⟨0, [7]⟩⟩ : LittleLaGi.Matrix Int)
        ⟨1, 2, ⟨0, [7, 8]⟩⟩ = Res.ret true
    ∧ ∀ (fuel C : Nat) (Y : LittleLaGi.Matrix Int),
        LittleLaGi.Matrix.operator_eq (fuel + 1) (LittleLaGi.Matrix.create (fun _ => 0) 0 C) Y
          = Res.ret true := by
  refine ⟨by decide, ?_⟩
  intro fuel C Y
  simp [LittleLaGi.Matrix.operator_eq, forLoopR, LittleLaGi.Matrix.create,
    LittleLaGi.Matrix.reset_buffer]

/-- C10: the constructor `Matrix(R, C)` only reserves storage: the vector it leaves has no
element at all, so its length is not `R*C` (for `Matrix(1, 1)`: 0 against 1); and the
reserved capacity is not `nrow*ncol` either once `reset_buffer` shrinks the shape. -/
theorem C10_buffer_length_is_not_shape :
    (∀ (raw : Nat → Int) (R C : Nat), (LittleLaGi.Matrix.create raw R C).data.size = 0)
    ∧ (LittleLaGi.Matrix.create (fun _ => (0 : Int)) 1 1).data.size ≠ 1 * 1
    ∧ (LittleLaGi.Matrix.reset_buffer (fun _ => (0 : Int))
        (LittleLaGi.Matrix.create (fun _ => 0) 2 2) 1 1).data.capacity = 4
    ∧ (LittleLaGi.Matrix.reset_buffer (fun _ => (0 : Int))
        (LittleLaGi.Matrix.create (fun _ => 0) 2 2) 1 1).nrow = 1
    ∧ (LittleLaGi.Matrix.reset_buffer (fun _ => (0 : Int))
        (LittleLaGi.Matrix.create (fun _ => 0) 2 2) 1 1).ncol = 1 := by
  refine ⟨?_, by decide, by decide, by decide, by decide⟩
  intro raw R C
  exact LittleLaGi.Matrix.create_size_ll raw R C

/-- C11: move-constructing `B` from a LittleLaGi matrix `A` of any shape leaves `A` with
`nrow = 0`, `ncol = 0` and an empty vector without storage, and gives `B` the shape of `A`
and the buffer of `A` itself, so that `B(i,j)` reads what `A(i,j)` read, at every `(i,j)`. -/
theorem C11_move_ctor {α : Type} (A : LittleLaGi.Matrix α) :
    (A.move_ctor).2.nrow = 0 ∧ (A.move_ctor).2.ncol = 0
    ∧ (A.move_ctor).2.data.size = 0 ∧ (A.move_ctor).2.data.capacity = 0
    ∧ (A.move_ctor).1.nrow = A.nrow ∧ (A.move_ctor).1.ncol = A.ncol
    ∧ (A.move_ctor).1.data = A.data
    ∧ ∀ i j, i < A.nrow → j < A.ncol → (A.move_ctor).1.get i j = A.get i j :=
  ⟨rfl, rfl, rfl, rfl, rfl, rfl, rfl, fun _ _ _ _ => rfl⟩

/-- C12: for a source `S` whose storage covers its shape, the copy constructor and the
assignment `T = S` (to a target `T` of any shape, a different object) return a matrix with
the `nrow` and `ncol` of `S` whose cell `(i,j)` reads as `S(i,j)` at every in-range `(i,j)`;
assigning `S` to itself returns `S`. The source is a const reference: a value that no step
of the embedding can change. -/
theorem C12_copy_is_deep {α : Type} [Zero α] (raw : Nat → α) (S T : LittleLaGi.Matrix α)
    (fuel : Nat) (hS : S.WF) (hT : T.WF) (hfuel : S.nrow < fuel ∧ S.ncol < fuel) :
    (∃ M, LittleLaGi.Matrix.copy_ctor fuel raw S = Res.ret M ∧ M.nrow = S.nrow ∧
      M.ncol = S.ncol ∧ ∀ i j, i < S.nrow → j < S.ncol → M.get i j = S.get i j)
    ∧ (∃ M, LittleLaGi.Matrix.operator_assign fuel raw T S false = Res.ret M ∧
      M.nrow = S.nrow ∧ M.ncol = S.ncol ∧
      ∀ i j, i < S.nrow → j < S.ncol → M.get i j = S.get i j)
    ∧ LittleLaGi.Matrix.operator_assign fuel raw S S true = Res.ret S := by
  refine ⟨?_, ?_, rfl⟩
  · obtain ⟨M, hM, hr, hc, hwf, hval⟩ := LittleLaGi.copy_ctor_spec raw S hS fuel hfuel.1 hfuel.2
    refine ⟨M, hM, hr, hc, ?_⟩
    intro i j hi hj
    rw [LittleLaGi.Matrix.get_eq_ll M hwf (by rw [hr]; exact hi) (by rw [hc]; exact hj),
      LittleLaGi.Matrix.get_eq_ll S hS hi hj, hval i j hi hj]
  · obtain ⟨M, hM, hr, hc, hwf, hval⟩ :=
      LittleLaGi.operator_assign_spec raw T S hT hS fuel hfuel.1 hfuel.2
    refine ⟨M, hM, hr, hc, ?_⟩
    intro i j hi hj
    rw [LittleLaGi.Matrix.get_eq_ll M hwf (by rw [hr]; exact hi) (by rw [hc]; exact hj),
      LittleLaGi.Matrix.get_eq_ll S hS hi hj, hval i j hi hj]

/-- C12, at a 2×2 source and a 3×1 target. -/
theorem C12_copy_is_deep_witness :
    (∃ M, LittleLaGi.Matrix.copy_ctor 3 (fun _ => (9 : Int)) ⟨2, 2, ⟨0, [1, 2, 3, 4]⟩⟩
        = Res.ret M ∧ M.nrow = 2 ∧ M.ncol = 2)
    ∧ LittleLaGi.Matrix.operator_assign 3 (fun _ => (9 : Int)) ⟨3, 1, ⟨0, [7, 7, 7]⟩⟩
        ⟨2, 2, ⟨0, [1, 2, 3, 4]⟩⟩ false = Res.ret ⟨2, 2, ⟨0, [1, 2, 3, 4]⟩⟩ := by
  have h := C12_copy_is_deep (fun _ => (9 : Int)) ⟨2, 2, ⟨0, [1, 2, 3, 4]⟩⟩
    ⟨3, 1, ⟨0, [7, 7, 7]⟩⟩ 3 (by decide) (by decide) (by decide)
  obtain ⟨⟨M, hM, hr, hc, _⟩, _, _⟩ := h
  exact ⟨⟨M, hM, hr, hc⟩, by decide⟩

/-- C13: in a LittleLaGi matrix whose storage covers its shape `R×C`, cell `(i,j)` lives at
offset `i*C + j`; for `i < R` and `j < C` the offset is below `R*C`; two in-range pairs with
the same offset are the same pair; and after writing `v` at `(i,j)` a read of `(i,j)` gives
`v` while every other in-range cell reads as before. -/
theorem C13_row_major_offsets {α : Type} [Zero α] (m : LittleLaGi.Matrix α) (i j : Nat) (v : α)
    (hm : m.WF) (hi : i < m.nrow) (hj : j < m.ncol) :
    m.index i j = i * m.ncol + j
    ∧ m.index i j < m.nrow * m.ncol
    ∧ (∀ i' j', i' < m.nrow → j' < m.ncol → m.index i' j' = m.index i j → i' = i ∧ j' = j)
    ∧ ∃ m', m.set i j v = Res.ret m' ∧ m'.nrow = m.nrow ∧ m'.ncol = m.ncol ∧
        m'.get i j = Res.ret v ∧
        ∀ i' j', i' < m.nrow → j' < m.ncol → ¬ (i' = i ∧ j' = j) → m'.get i' j' = m.get i' j' := by
  refine ⟨rfl, idx_lt hi hj, ?_, ?_⟩
  · intro i' j' _ hj' h
    exact idx_inj hj' hj h
  · obtain ⟨m', hset, hr, hc, hl, _, hval⟩ := LittleLaGi.Matrix.set_spec_wf m hm hi hj v
    have hwf : m'.WF := by
      show m'.nrow * m'.ncol ≤ m'.data.cells.length
      rw [hr, hc, hl]; exact hm
    refine ⟨m', hset, hr, hc, ?_, ?_⟩
    · rw [LittleLaGi.Matrix.get_eq_ll m' hwf (by rw [hr]; exact hi) (by rw [hc]; exact hj),
        hval i j hj, if_pos ⟨rfl, rfl⟩]
    · intro i' j' hi' hj' hne
      rw [LittleLaGi.Matrix.get_eq_ll m' hwf (by rw [hr]; exact hi') (by rw [hc]; exact hj'),
        LittleLaGi.Matrix.get_eq_ll m hm hi' hj', hval i' j' hj', if_neg hne]

/-- C13, at cell `(1,0)` of a 2×3 matrix. -/
theorem C13_row_major_offsets_witness :
    (⟨2, 3, ⟨0, [1, 2, 3, 4, 5, 6]⟩⟩ : LittleLaGi.Matrix Int).index 1 0 = 3
    ∧ LittleLaGi.Matrix.set (⟨2, 3, ⟨0, [1, 2, 3, 4, 5, 6]⟩⟩ : LittleLaGi.Matrix Int) 1 0 9
        = Res.ret ⟨2, 3, ⟨0, [1, 2, 3, 9, 5, 6]⟩⟩ :=
  ⟨(C13_row_major_offsets (⟨2, 3, ⟨0, [1, 2, 3, 4, 5, 6]⟩⟩ : LittleLaGi.Matrix Int) 1 0 9
      (by decide) (by decide) (by decide)).1, by decide⟩

/-- C14: with the allocator counting as specified, constructing a 10×10 matrix raises
`allocated()` by 1 and `bytes()` by `100 * sizeof(double)` and leaves `deallocated()` as it
was; destroying that matrix brings `bytes()` back and raises `deallocated()` by 1; and after
any run of constructions and destructions from the start of the process
`deallocated() ≤ allocated()`. -/
theorem C14_allocator_accounting {α : Type} (c : LittleLaGi.Counters) (raw : Nat → α)
    (es : List LittleLaGi.Event) :
    LittleLaGi.allocated (LittleLaGi.Matrix.create_counted c raw 10 10).1
        = LittleLaGi.allocated c + 1
    ∧ LittleLaGi.bytes (LittleLaGi.Matrix.create_counted c raw 10 10).1
        = LittleLaGi.bytes c + 100 * LittleLaGi.sizeof_double
    ∧ LittleLaGi.deallocated (LittleLaGi.Matrix.create_counted c raw 10 10).1
        = LittleLaGi.deallocated c
    ∧ (LittleLaGi.Matrix.create_counted c raw 10 10).2 = LittleLaGi.Matrix.create raw 10 10
    ∧ LittleLaGi.bytes ((LittleLaGi.Matrix.create_counted c raw 10 10).2.destroy
        (LittleLaGi.Matrix.create_counted c raw 10 10).1) = LittleLaGi.bytes c
    ∧ LittleLaGi.deallocated ((LittleLaGi.Matrix.create_counted c raw 10 10).2.destroy
        (LittleLaGi.Matrix.create_counted c raw 10 10).1) = LittleLaGi.deallocated c + 1
    ∧ LittleLaGi.allocated ((LittleLaGi.Matrix.create_counted c raw 10 10).2.destroy
        (LittleLaGi.Matrix.create_counted c raw 10 10).1) = LittleLaGi.allocated c + 1
    ∧ LittleLaGi.deallocated (LittleLaGi.World.run raw es : LittleLaGi.World α).counters
        ≤ LittleLaGi.allocated (LittleLaGi.World.run raw es : LittleLaGi.World α).counters := by
  have h1 : (LittleLaGi.Matrix.create_counted c raw 10 10).1 = c.allocate 100 := by
    rw [LittleLaGi.Matrix.create_counted_fst]; rfl
  have h2 : (LittleLaGi.Matrix.create_counted c raw 10 10).2 = LittleLaGi.Matrix.create raw 10 10 :=
    LittleLaGi.Matrix.create_counted_snd c raw 10 10
  have h3 : (LittleLaGi.Matrix.create raw 10 10).destroy (c.allocate 100)
      = (c.allocate 100).deallocate 100 := by
    have hcap := LittleLaGi.Matrix.create_capacity raw 10 10
    simp only [LittleLaGi.Matrix.destroy, LittleLaGi.Vec.destroy, hcap]
    rfl
  rw [h1, h2, h3]
  refine ⟨rfl, rfl, rfl, rfl, ?_, rfl, rfl, ?_⟩
  · simp [LittleLaGi.bytes, LittleLaGi.Counters.allocate, LittleLaGi.Counters.deallocate]
  · have := LittleLaGi.World.run_inv raw es
    simp only [LittleLaGi.allocated, LittleLaGi.deallocated]
    omega

/-- C15: in the Cycatz variant `check_range(i, j)` throws `out_of_range` if and only if
`i ≥ R` or `j ≥ C`, and returns `true` otherwise; on a matrix without rows or without
columns every index pair is rejected. -/
theorem C15_check_range {α : Type} (A : Cycatz.Matrix α) (i j : Nat) :
    (A.check_range i j = Res.throw Exn.out_of_range ↔ (i ≥ A.nrow ∨ j ≥ A.ncol))
    ∧ (¬ (i ≥ A.nrow ∨ j ≥ A.ncol) → A.check_range i j = Res.ret true)
    ∧ (A.nrow = 0 ∨ A.ncol = 0 → A.check_range i j = Res.throw Exn.out_of_range) := by
  simp only [Cycatz.Matrix.nrow, Cycatz.Matrix.ncol, Cycatz.Matrix.check_range]
  refine ⟨?_, ?_, ?_⟩
  · constructor
    · intro h
      by_contra hn
      rw [if_neg hn] at h
      exact Res.noConfusion h
    · intro h
      rw [if_pos h]
  · intro h
    rw [if_neg h]
  · intro h
    rw [if_pos (by omega)]

/-- C17: on a matrix without rows the Cycatz `to_string` returns the text `[` alone, which
does not end with `]`: the closing bracket is written with the last row only. With at least
one row the text does start with `[`, end with `]` and hold `R - 1` newlines (elements
written without newlines), as for `[[1,2],[3,4]]`. -/
theorem C17_to_string_no_rows_unclosed :
    Cycatz.Matrix.to_string (fun x : Int => toString x) 3 ⟨0, 0, []⟩ = Res.ret "["
    ∧ ("[" : String).data.getLast? ≠ some ']'
    ∧ (∀ (α : Type) (fmt : α → String) (fuel : Nat) (A : Cycatz.Matrix α),
        A.m_nrow = 0 → A.to_string fmt (fuel + 1) = Res.ret "[")
    ∧ Cycatz.Matrix.to_string (fun x : Int => toString x) 3 ⟨2, 2, [1, 2, 3, 4]⟩
        = Res.ret "[ 1 2\n 3 4 ]"
    ∧ (∀ (α : Type) [Zero α] (fmt : α → String) (A : Cycatz.Matrix α) (fuel : Nat),
        A.WF → 1 ≤ A.m_nrow → (∀ x, List.count (Char.ofNat 10) (fmt x).data = 0) →
        A.m_nrow < fuel → A.m_ncol < fuel →
        ∃ s, A.to_string fmt fuel = Res.ret s ∧ s.data.head? = some '[' ∧
          s.data.getLast? = some ']' ∧ List.count (Char.ofNat 10) s.data = A.m_nrow - 1) := by
  refine ⟨by decide, by decide, ?_, by decide, ?_⟩
  · intro α fmt fuel A hR
    exact Cycatz.to_string_no_rows fmt fuel A hR
  · intro α _ fmt A fuel hA hR hfmt hfR hfC
    exact Cycatz.to_string_rows fmt A hA hR hfmt fuel hfR hfC

/-- C18: `clamp(v, lo, hi)` returns `lo` when `v < lo`, else `hi` when `hi < v`, else `v`,
whatever the comparison. With `lo ≤ hi` and a comparable `v` the result lies in `[lo, hi]`;
a `v` for which both comparisons are false, such as NaN, is returned unchanged, and
`angle_between_r2` then hands that very value to `acos`. -/
theorem C18_clamp {α β : Type} [LinearOrder β] (lt : α → α → Bool) (d : Abt8601.Dbl α)
    (lo hi : β) (h : lo ≤ hi) :
    (∀ v l u : α, lt v l = true → Abt8601.clamp lt v l u = l)
    ∧ (∀ v l u : α, lt v l = false → lt u v = true → Abt8601.clamp lt v l u = u)
    ∧ (∀ v l u : α, lt v l = false → lt u v = false → Abt8601.clamp lt v l u = v)
    ∧ (∀ x : β, x < lo → Abt8601.clamp Abt8601.ltNaN (some x) (some lo) (some hi) = some lo)
    ∧ (∀ x : β, hi < x → Abt8601.clamp Abt8601.ltNaN (some x) (some lo) (some hi) = some hi)
    ∧ (∀ x : β, lo ≤ x → x ≤ hi →
        Abt8601.clamp Abt8601.ltNaN (some x) (some lo) (some hi) = some x)
    ∧ (∀ x : β, ∃ y, Abt8601.clamp Abt8601.ltNaN (some x) (some lo) (some hi) = some y ∧
        lo ≤ y ∧ y ≤ hi)
    ∧ Abt8601.clamp Abt8601.ltNaN (none : Option β) (some lo) (some hi) = none
    ∧ (∀ u v : α × α,
        d.lt (Abt8601.dot_r2 d (Abt8601.normalise_r2 d u) (Abt8601.normalise_r2 d v))
          (d.ofInt (-1)) = false →
        d.lt (d.ofInt 1)
          (Abt8601.dot_r2 d (Abt8601.normalise_r2 d u) (Abt8601.normalise_r2 d v)) = false →
        Abt8601.angle_between_r2 d u v
          = d.acos (Abt8601.dot_r2 d (Abt8601.normalise_r2 d u) (Abt8601.normalise_r2 d v))) := by
  refine ⟨?_, ?_, ?_, ?_, ?_, ?_, ?_, rfl, ?_⟩
  · intro v l u h1
    simp [Abt8601.clamp, h1]
  · intro v l u h1 h2
    simp [Abt8601.clamp, h1, h2]
  · intro v l u h1 h2
    simp [Abt8601.clamp, h1, h2]
  · intro x hx
    simp [Abt8601.clamp, Abt8601.ltNaN, hx]
  · intro x hx
    have h1 : ¬ x < lo := not_lt.mpr (le_trans h (le_of_lt hx))
    simp [Abt8601.clamp, Abt8601.ltNaN, hx, h1]
  · intro x h1 h2
    simp [Abt8601.clamp, Abt8601.ltNaN, not_lt.mpr h1, not_lt.mpr h2]
  · intro x
    exact Abt8601.clamp_bounds lo hi x h
  · intro u v h1 h2
    simp [Abt8601.angle_between_r2, Abt8601.clamp, h1, h2]

/-- C18, at the bounds `-1 ≤ 1` of `angle_between_r2` over the rationals: the clamped value is
a valid argument of `acos`, and NaN stays NaN. -/
theorem C18_clamp_witness :
    (∀ x : ℚ, ∃ y, Abt8601.clamp Abt8601.ltNaN (some x) (some (-1)) (some 1) = some y ∧
      -1 ≤ y ∧ y ≤ 1)
    ∧ Abt8601.clamp Abt8601.ltNaN (none : Option ℚ) (some (-1)) (some 1) = none := by
  have h := C18_clamp (Abt8601.ltNaN : Option ℚ → Option ℚ → Bool)
    ⟨Abt8601.ltNaN, fun _ _ => none, fun _ _ => none, fun _ _ => none, fun x => x, fun x => x,
      fun _ => false, fun _ => true, fun x _ => x, fun n => some n⟩
    (-1 : ℚ) 1 (by norm_num)
  exact ⟨h.2.2.2.2.2.2.1, h.2.2.2.2.2.2.2.1⟩

end Nsdhw
